import Mathlib

/-!
# Verification of the weaver-solver core (src/main.rs)

Shallow embedding of the word-ladder solver: the `Word` codec
(`Word::new`, `get_letter`, `distance`, the `Display` rendering), the
graph builder `connect_words`, and the A*-style search `weave`, together
with proofs of the specified properties.

Modelling conventions:
* `u32` / `u16` payloads are modelled as `Nat`.  Every value the program
  computes with is far below the wrap-around bound (word values are below
  `26^4 = 456976`; scores are bounded by `u16::MAX = 65535`, which the
  source uses as "infinity"), so plain `Nat` arithmetic coincides with the
  machine arithmetic on the values reached by the program.
* Rust panics (`assert!`, `unwrap`, out-of-bounds indexing) are modelled
  as `Except.error` results.
* The Rust `while` loops carry no bound; the model uses explicit fuel,
  with a dedicated error value marking fuel exhaustion (divergence); the
  supplied fuel is proved sufficient below.
-/

set_option maxHeartbeats 1000000

deriving instance DecidableEq for Except

namespace WeaverSolver

/-! ## Word codec (`struct Word(u32)`, src/main.rs:21-101) -/

structure Word where
  val : Nat
deriving DecidableEq, Repr

instance : Inhabited Word := ⟨⟨0⟩⟩

/-- The two `assert!` panics of `Word::new`, modelled as error values. -/
inductive WordError where
  | wrongLength
  | notLowercase
deriving DecidableEq, Repr

/-- `str::len` counts UTF-8 bytes: the check `s.len() == 4` is a byte count. -/
def strByteLen (s : List Char) : Nat := (s.map Char.utf8Size).sum

/-- the check `('a'..='z').contains(&c)`. -/
def isLowerAZ (c : Char) : Bool := 'a' ≤ c && c ≤ 'z'

/-- The `for (i, c) in s.chars().enumerate()` loop of `Word::new`: panics
(here: errors) on the first out-of-alphabet character, otherwise sums
`(c as u8 - b'a') * 26^(3 - i)`. -/
def encodeChars : List Char → Nat → Except WordError Nat
  | [], _ => .ok 0
  | c :: cs, i =>
    if isLowerAZ c then
      (encodeChars cs (i + 1)).map (fun r => (c.toNat - 97) * 26 ^ (3 - i) + r)
    else .error .notLowercase

/-- `Word::new` (src/main.rs:58-72). -/
def Word.new (s : List Char) : Except WordError Word :=
  if strByteLen s ≠ 4 then .error .wrongLength
  else (encodeChars s 0).map Word.mk

/-- `Word::get_letter` (src/main.rs:75-77): `(self.0 % 26^(4-i)) / 26^(3-i)`. -/
def Word.get_letter (w : Word) (i : Nat) : Nat :=
  (w.val % 26 ^ (4 - i)) / 26 ^ (3 - i)

/-- `Word::distance` (src/main.rs:79-85): the number of positions
`i ∈ {0,1,2,3}` where the letters differ. -/
def Word.distance (a b : Word) : Nat :=
  (List.range 4).countP (fun i => a.get_letter i != b.get_letter i)

/-- `impl fmt::Display for Word` (src/main.rs:88-97): the four characters
`b'a' + get_letter(i)`, i.e. the decoding used for display. -/
def Word.render (w : Word) : List Char :=
  (List.range 4).map (fun i => Char.ofNat (97 + w.get_letter i))

/-! ## Graph builder (`connect_words`, src/main.rs:99-137) -/

structure WordNode where
  word : Word
  connected : List Nat
deriving DecidableEq, Repr

instance : Inhabited WordNode := ⟨⟨default, []⟩⟩

def wordLe (a b : Word) : Prop := a.val ≤ b.val

instance : DecidableRel wordLe := fun a b => Nat.decLe a.val b.val

instance : IsTotal Word wordLe := ⟨fun a b => Nat.le_total a.val b.val⟩

instance : IsTrans Word wordLe := ⟨fun _ _ _ => Nat.le_trans⟩

/-- `words.sort_unstable()`: a `≤`-sorted permutation of the input.  Any two
`≤`-sorted permutations of the same list are equal (`val`-ordering is
antisymmetric), so insertion sort computes the same list the Rust sort does. -/
def sortWords (ws : List Word) : List Word := List.insertionSort wordLe ws

/-- `words.dedup()`: removes consecutive duplicates. -/
def dedupWords : List Word → List Word
  | [] => []
  | [a] => [a]
  | a :: b :: t => if a = b then dedupWords (b :: t) else a :: dedupWords (b :: t)

/-- The lookup table `grid : Vec<Option<NonZeroU32>>` of length `26^4`,
modelled as a function; the entry `Some(NonZeroU32::new(idx+1))` is modelled
as `some idx` (the `+1`/`-1` pair of the source is the `NonZeroU32` encoding).
Indexing the Rust vector panics when `word.0 ≥ 26^4`; the theorems below
therefore assume all input word values are below `26^4`. -/
def gridSet (g : Nat → Option Nat) (k v : Nat) : Nat → Option Nat :=
  fun x => if x = k then some v else g x

/-- `word_nodes[a].connected.push(b)`.  The out-of-range case cannot occur
in `connect_words` (indices come from `enumerate` and from the grid). -/
def addConn (nodes : List WordNode) (a b : Nat) : List WordNode :=
  match nodes[a]? with
  | some nd => nodes.set a { nd with connected := nd.connected ++ [b] }
  | none => nodes

/-- The `for i in 1..letter + 1` loop for one dimension (src/main.rs:122-132):
probe `word.0 - i * offset` in the grid and on a hit push the edge in both
directions (first `connected.push(idx)` on the hit node, then `push(i)` on
the current node, as in the source). -/
def scanDim (grid : Nat → Option Nat) (idx : Nat) (w : Word) (dim : Nat)
    (nodes : List WordNode) : List WordNode :=
  ((List.range (w.get_letter dim)).map (· + 1)).foldl
    (fun nodes i =>
      match grid (w.val - i * 26 ^ (3 - dim)) with
      | some j => addConn (addConn nodes j idx) idx j
      | none => nodes)
    nodes

/-- The body of `for (idx, word) in words.iter().enumerate()`
(src/main.rs:117-134): first `grid[word.0] = Some(idx+1)`, then scan the
four dimensions. -/
def connectStep (st : List WordNode × (Nat → Option Nat)) (iw : Nat × Word) :
    List WordNode × (Nat → Option Nat) :=
  let grid := gridSet st.2 iw.2.val iw.1
  ([0, 1, 2, 3].foldl (fun nodes dim => scanDim grid iw.1 iw.2 dim nodes) st.1, grid)

/-- `connect_words` (src/main.rs:104-137). -/
def connect_words (words0 : List Word) : List WordNode :=
  let words := dedupWords (sortWords words0)
  ((words.enum.foldl connectStep (words.map (fun w => ⟨w, []⟩), fun _ => none))).1

/-! ## Path finder (`weave`, src/main.rs:139-187) -/

/-- `weave`'s failure modes: `unwrapPanic` models the panic of
`words.iter().position(..).unwrap()` when the start word is absent;
`diverge` marks fuel exhaustion of the model (proved unreachable below). -/
inductive WeaveError where
  | unwrapPanic
  | diverge
deriving DecidableEq, Repr

/-- `u16::MAX`, used by the source as the "infinity" initial score. -/
def MAXSCORE : Nat := 65535

/-- The mutable search state of one `weave` call: the frontier
`open : HashSet<u32>` (as the list of its members in insertion order),
`g_score`, `f_score` (written but never read, as in the source) and
`came_from` (`u32::MAX` modelled as `none`). -/
structure AState where
  frontier : List Nat
  g : List Nat
  f : List Nat
  came : List (Option Nat)
deriving Repr

def nodeWord (words : List WordNode) (n : Nat) : Word := (words.getD n default).word

/-- The `min_by_key` key `g_score[n] + words[n].word.distance(end)`
(src/main.rs:152-153).  Note the source recomputes this and does not read
`f_score`. -/
def selKey (words : List WordNode) (endW : Word) (st : AState) (n : Nat) : Nat :=
  st.g.getD n MAXSCORE + (nodeWord words n).distance endW

/-- One relaxation step of `for &n in &word.connected` (src/main.rs:171-181). -/
def relax (words : List WordNode) (endW : Word) (node : Nat) (st : AState) (n : Nat) :
    AState :=
  let tentative := st.g.getD node MAXSCORE +
    (nodeWord words node).distance (nodeWord words n)
  if tentative < st.g.getD n MAXSCORE then
    { frontier := if n ∈ st.frontier then st.frontier else st.frontier ++ [n]
      g := st.g.set n tentative
      f := st.f.set n (tentative + (nodeWord words n).distance endW)
      came := st.came.set n (some node) }
  else st

/-- The reconstruction loop `while came_from[node] != u32::MAX`
(src/main.rs:155-165): walk the predecessor links back to the start;
`path.insert(0, ..)` while walking back is appending while returning.
The Rust loop is unbounded; fuel `MAXSCORE + 1` is sufficient because
`g_score` strictly decreases along `came_from` links (proved below). -/
def reconstruct (came : List (Option Nat)) (words : List WordNode) :
    Nat → Nat → Option (List Word)
  | 0, _ => none
  | fuel + 1, node =>
    match came.getD node none with
    | none => some [nodeWord words node]
    | some m => (reconstruct came words fuel m).map (· ++ [nodeWord words node])

/-- The search loop `while let Some(&node) = open.iter().min_by_key(..)`
(src/main.rs:150-184).  `HashSet` iteration order is unspecified and varies
between runs, and `min_by_key` returns the first minimum in iteration
order, so any member minimising the key can be selected; the selection is
abstracted by the parameter `sel`, constrained by `SelSpec` in theorems. -/
def weaveLoop (sel : List Nat → (Nat → Nat) → Option Nat) (endW : Word)
    (words : List WordNode) : Nat → AState → Except WeaveError (Option (List Word))
  | 0, _ => .error .diverge
  | fuel + 1, st =>
    match sel st.frontier (selKey words endW st) with
    | none => .ok none
    | some node =>
      if nodeWord words node = endW then
        match reconstruct st.came words (MAXSCORE + 1) node with
        | some path => .ok (some path)
        | none => .error .diverge
      else
        weaveLoop sel endW words fuel
          ((words.getD node default).connected.foldl (relax words endW node)
            { st with frontier := st.frontier.erase node })

/-- Fuel exceeding the iteration count of the search loop: every iteration
strictly decreases `2 * (Σ g_score) + |frontier|`, which starts below
`2 * MAXSCORE * n + 1`. -/
def weaveFuel (n : Nat) : Nat := 2 * MAXSCORE * n + n + 2

/-- `weave` (src/main.rs:139-187). -/
def weave (sel : List Nat → (Nat → Nat) → Option Nat) (start endW : Word)
    (words : List WordNode) : Except WeaveError (Option (List Word)) :=
  match words.findIdx? (fun n => decide (n.word = start)) with
  | none => .error .unwrapPanic
  | some si =>
    weaveLoop sel endW words (weaveFuel words.length)
      { frontier := [si]
        g := (List.replicate words.length MAXSCORE).set si 0
        f := (List.replicate words.length MAXSCORE).set si 0
        came := List.replicate words.length none }

/-- A valid frontier selection: a behaviour `min_by_key` can exhibit under
some `HashSet` iteration order — a member of the frontier minimising the
key, `none` exactly on the empty frontier. -/
structure SelSpec (sel : List Nat → (Nat → Nat) → Option Nat) : Prop where
  mem : ∀ l k x, sel l k = some x → x ∈ l
  min : ∀ l k x, sel l k = some x → ∀ y ∈ l, k x ≤ k y
  total : ∀ l k, l ≠ [] → (sel l k).isSome

/-- `min_by_key` when the `HashSet` iterates in insertion order: the first
member attaining the minimal key. -/
def pickFirstMin (l : List Nat) (k : Nat → Nat) : Option Nat :=
  l.foldl (fun acc x =>
    match acc with
    | none => some x
    | some b => if k x < k b then some x else some b) none

/-- `min_by_key` when the `HashSet` iterates in reverse insertion order:
the last member attaining the minimal key. -/
def pickLastMin (l : List Nat) (k : Nat → Nat) : Option Nat :=
  l.foldl (fun acc x =>
    match acc with
    | none => some x
    | some b => if k x ≤ k b then some x else some b) none

/-! ## Paths in the node graph -/

/-- Word `a`'s node has an edge recorded to word `b`'s node. -/
def WAdj (words : List WordNode) (a b : Word) : Prop :=
  ∃ i j, i < words.length ∧ j < words.length ∧
    nodeWord words i = a ∧ nodeWord words j = b ∧
    j ∈ (words.getD i default).connected

/-- A path in the graph from `s` to `e`: a nonempty word sequence starting
at `s`, ending at `e`, with every element a node word and every consecutive
pair connected. -/
def IsPath (words : List WordNode) (s e : Word) (p : List Word) : Prop :=
  p.head? = some s ∧ p.getLast? = some e ∧ p.Chain' (WAdj words) ∧
  ∀ w ∈ p, ∃ i, i < words.length ∧ nodeWord words i = w

/-- The total cost of a path: the sum of `distance` over consecutive words. -/
def pathCost : List Word → Nat
  | a :: b :: t => a.distance b + pathCost (b :: t)
  | _ => 0

/-! ## Derived notions used by the proofs -/

/-- The generating rule of the graph builder: `b` is obtained from `a` by
decreasing the letter at one position `dim` by some amount `k ≥ 1` (these
are exactly the values the inner loops of `connect_words` probe). -/
def GenW (a b : Word) : Prop :=
  ∃ dim k, dim < 4 ∧ 1 ≤ k ∧ k ≤ a.get_letter dim ∧
    b.val = a.val - k * 26 ^ (3 - dim)

/-- The symmetric edge relation between indices of the sorted word list. -/
def EdgeG (L : List Word) (i j : Nat) : Prop :=
  GenW (L.getD i default) (L.getD j default) ∨ GenW (L.getD j default) (L.getD i default)

/-- Pushing the discovered edges of node `idx` (both directions per hit),
in hit order. -/
def pushEdges (idx : Nat) (nodes : List WordNode) (H : List Nat) : List WordNode :=
  H.foldl (fun nds j => addConn (addConn nds j idx) idx j) nodes

/-- The grid hits produced while scanning one dimension of word `w`. -/
def dimHits (g : Nat → Option Nat) (w : Word) (dim : Nat) : List Nat :=
  ((List.range (w.get_letter dim)).map (· + 1)).filterMap
    (fun i => g (w.val - i * 26 ^ (3 - dim)))

/-- All grid hits of one word, in scan order. -/
def allHits (g : Nat → Option Nat) (w : Word) : List Nat :=
  dimHits g w 0 ++ dimHits g w 1 ++ dimHits g w 2 ++ dimHits g w 3

/-- The grid contents after the first `m` words have been processed. -/
def GridInv (L : List Word) (m : Nat) (g : Nat → Option Nat) : Prop :=
  ∀ v j, g v = some j ↔ (j < m ∧ j < L.length ∧ (L.getD j default).val = v)

/-- The node array contents after the first `m` words have been processed:
words in place, and each connection list holding exactly one entry per
discovered edge among the first `m` words. -/
def NodesSpec (L : List Word) (m : Nat) (nodes : List WordNode) : Prop :=
  nodes.length = L.length ∧
  (∀ i, (nodes.getD i default).word = L.getD i default) ∧
  (∀ i j, (i < m ∧ j < m ∧ EdgeG L i j →
      (nodes.getD i default).connected.count j = 1) ∧
    (¬(i < m ∧ j < m ∧ EdgeG L i j) →
      (nodes.getD i default).connected.count j = 0))

/-- Well-formedness of a node graph, as enjoyed by `connect_words` output:
connections stay in range, connected words are at Hamming distance exactly 1,
and node words are pairwise distinct. -/
structure WFGraph (G : List WordNode) : Prop where
  connBound : ∀ i, ∀ j ∈ (G.getD i default).connected, j < G.length
  connDist : ∀ i, ∀ j ∈ (G.getD i default).connected,
      (nodeWord G i).distance (nodeWord G j) = 1
  wordsInj : ∀ i j, i < G.length → j < G.length → nodeWord G i = nodeWord G j → i = j

/-- The A* loop invariant of `weave` (`si` is the start node index). -/
structure Inv (G : List WordNode) (si : Nat) (st : AState) : Prop where
  glen : st.g.length = G.length
  clen : st.came.length = G.length
  frontBound : ∀ x ∈ st.frontier, x < G.length
  frontNodup : st.frontier.Nodup
  gstart : st.g.getD si MAXSCORE = 0
  camestart : st.came.getD si none = none
  gBound : ∀ x, st.g.getD x MAXSCORE ≤ MAXSCORE
  frontG : ∀ x ∈ st.frontier, st.g.getD x MAXSCORE < MAXSCORE
  relaxed : ∀ p, p < G.length → p ∉ st.frontier →
      ∀ q ∈ (G.getD p default).connected,
        st.g.getD q MAXSCORE ≤
          st.g.getD p MAXSCORE + (nodeWord G p).distance (nodeWord G q)
  cameSpec : ∀ q m, st.came.getD q none = some m →
      m < G.length ∧ q ∈ (G.getD m default).connected ∧
      st.g.getD m MAXSCORE + (nodeWord G m).distance (nodeWord G q) ≤
        st.g.getD q MAXSCORE ∧
      st.g.getD m MAXSCORE < st.g.getD q MAXSCORE
  cameNone : ∀ q, q < G.length → st.came.getD q none = none →
      q = si ∨ st.g.getD q MAXSCORE = MAXSCORE

/-- Node-index paths from `si` through recorded connections, grown at the
far end, together with their accumulated cost. -/
inductive Reach (G : List WordNode) (si : Nat) : Nat → Nat → Prop
  | refl : si < G.length → Reach G si si 0
  | step {m q c} : Reach G si m c → q ∈ (G.getD m default).connected → q < G.length →
      Reach G si q (c + (nodeWord G m).distance (nodeWord G q))

/-! ## Codec lemmas -/

lemma exceptMap_ok {α β ε : Type} (f : α → β) (a : α) :
    (Except.ok a : Except ε α).map f = .ok (f a) := rfl

lemma exceptMap_error {α β ε : Type} (f : α → β) (e : ε) :
    (Except.error e : Except ε α).map f = .error e := rfl

lemma encodeChars_nil (i : Nat) : encodeChars [] i = .ok 0 := rfl

lemma encodeChars_cons (c : Char) (cs : List Char) (i : Nat) :
    encodeChars (c :: cs) i =
      if isLowerAZ c then
        (encodeChars cs (i + 1)).map (fun r => (c.toNat - 97) * 26 ^ (3 - i) + r)
      else .error .notLowercase := rfl

lemma isLowerAZ_eq_true_iff {c : Char} : isLowerAZ c = true ↔ ('a' ≤ c ∧ c ≤ 'z') := by
  simp [isLowerAZ]

lemma toNat_bounds_of_lower {c : Char} (h : isLowerAZ c = true) :
    97 ≤ c.toNat ∧ c.toNat ≤ 122 := by
  rw [isLowerAZ_eq_true_iff] at h
  obtain ⟨h1, h2⟩ := h
  rw [Char.le_def, UInt32.le_def] at h1 h2
  exact ⟨h1, h2⟩

lemma length_eq_four' {α : Type} {l : List α} (h : l.length = 4) :
    ∃ a b c d, l = [a, b, c, d] := by
  rcases l with _ | ⟨a, l⟩
  · simp at h
  rcases l with _ | ⟨b, l⟩
  · simp at h
  rcases l with _ | ⟨c, l⟩
  · simp at h
  rcases l with _ | ⟨d, l⟩
  · simp at h
  rcases l with _ | ⟨e, l⟩
  · exact ⟨a, b, c, d, rfl⟩
  · simp at h

lemma utf8Size_of_lower {c : Char} (h : isLowerAZ c = true) : c.utf8Size = 1 := by
  have hb := toNat_bounds_of_lower h
  have hle : c.val ≤ 127 := by
    rw [UInt32.le_def]
    show c.val.toBitVec.toNat ≤ _
    have h127 : (127 : UInt32).toBitVec.toNat = 127 := by decide
    rw [h127]
    exact le_trans hb.2 (by norm_num)
  simp [Char.utf8Size]
  intro hc
  exact absurd hle (by simpa using hc)

lemma strByteLen_of_lower {s : List Char} (h : ∀ c ∈ s, isLowerAZ c = true) :
    strByteLen s = s.length := by
  induction s with
  | nil => rfl
  | cons c t ih =>
    have hc := utf8Size_of_lower (h c (by simp))
    have ht := ih (fun x hx => h x (by simp [hx]))
    simp only [strByteLen, List.map_cons, List.sum_cons, List.length_cons] at ht ⊢
    omega

lemma encodeChars_ok_lower : ∀ (s : List Char) (i r : Nat),
    encodeChars s i = .ok r → ∀ c ∈ s, isLowerAZ c = true := by
  intro s
  induction s with
  | nil => simp
  | cons c t ih =>
    intro i r h x hx
    by_cases hc : isLowerAZ c = true
    · rw [encodeChars_cons, if_pos hc] at h
      rcases List.mem_cons.mp hx with rfl | hx'
      · exact hc
      · cases ht : encodeChars t (i + 1) with
        | error e => rw [ht, exceptMap_error] at h; cases h
        | ok r' => exact ih (i + 1) r' ht x hx'
    · rw [encodeChars_cons, if_neg hc] at h
      exact absurd h (by simp)

lemma encodeChars_error_of_bad : ∀ (s : List Char) (i : Nat),
    (∃ c ∈ s, ¬ isLowerAZ c = true) → ∃ e, encodeChars s i = .error e := by
  intro s
  induction s with
  | nil => simp
  | cons c t ih =>
    intro i hbad
    by_cases hc : isLowerAZ c = true
    · obtain ⟨x, hx, hxbad⟩ := hbad
      rcases List.mem_cons.mp hx with rfl | hx'
      · exact absurd hc hxbad
      · obtain ⟨e, he⟩ := ih (i + 1) ⟨x, hx', hxbad⟩
        exact ⟨e, by rw [encodeChars_cons, if_pos hc, he, exceptMap_error]⟩
    · exact ⟨.notLowercase, by rw [encodeChars_cons, if_neg hc]⟩

lemma word_new_four (c0 c1 c2 c3 : Char)
    (h0 : isLowerAZ c0 = true) (h1 : isLowerAZ c1 = true)
    (h2 : isLowerAZ c2 = true) (h3 : isLowerAZ c3 = true) :
    Word.new [c0, c1, c2, c3] =
      .ok ⟨(c0.toNat - 97) * 17576 + (c1.toNat - 97) * 676 +
           (c2.toNat - 97) * 26 + (c3.toNat - 97)⟩ := by
  have hlen : strByteLen [c0, c1, c2, c3] = 4 := by
    rw [strByteLen_of_lower ?_]
    · rfl
    · intro c hc
      fin_cases hc <;> assumption
  rw [Word.new, if_neg (by omega)]
  rw [encodeChars_cons, if_pos h0, encodeChars_cons, if_pos h1,
    encodeChars_cons, if_pos h2, encodeChars_cons, if_pos h3, encodeChars_nil,
    exceptMap_ok, exceptMap_ok, exceptMap_ok, exceptMap_ok, exceptMap_ok]
  simp only [Except.ok.injEq, Word.mk.injEq]
  norm_num
  ring

lemma get_letter_digits (a0 a1 a2 a3 : Nat)
    (h0 : a0 ≤ 25) (h1 : a1 ≤ 25) (h2 : a2 ≤ 25) (h3 : a3 ≤ 25) :
    (Word.mk (a0 * 17576 + a1 * 676 + a2 * 26 + a3)).get_letter 0 = a0 ∧
    (Word.mk (a0 * 17576 + a1 * 676 + a2 * 26 + a3)).get_letter 1 = a1 ∧
    (Word.mk (a0 * 17576 + a1 * 676 + a2 * 26 + a3)).get_letter 2 = a2 ∧
    (Word.mk (a0 * 17576 + a1 * 676 + a2 * 26 + a3)).get_letter 3 = a3 := by
  simp only [Word.get_letter]
  norm_num
  omega

lemma render_of_new {s : List Char} {w : Word} (h : Word.new s = .ok w) :
    w.render = s ∧ s.length = 4 ∧ (∀ c ∈ s, isLowerAZ c = true) ∧ w.val < 456976 := by
  have hblen : strByteLen s = 4 := by
    by_contra hb
    rw [Word.new, if_pos hb] at h
    cases h
  have henc : ∃ r, encodeChars s 0 = .ok r := by
    cases he : encodeChars s 0 with
    | error e =>
      rw [Word.new, if_neg (by omega), he, exceptMap_error] at h
      cases h
    | ok r => exact ⟨r, rfl⟩
  obtain ⟨r, hr⟩ := henc
  have hlow : ∀ c ∈ s, isLowerAZ c = true := encodeChars_ok_lower s 0 r hr
  have hlen : s.length = 4 := by rw [← strByteLen_of_lower hlow]; exact hblen
  obtain ⟨c0, c1, c2, c3, rfl⟩ := length_eq_four' hlen
  have hc0 := hlow c0 (by simp)
  have hc1 := hlow c1 (by simp)
  have hc2 := hlow c2 (by simp)
  have hc3 := hlow c3 (by simp)
  have hfour := word_new_four c0 c1 c2 c3 hc0 hc1 hc2 hc3
  rw [hfour] at h
  have hw : w = ⟨(c0.toNat - 97) * 17576 + (c1.toNat - 97) * 676 +
      (c2.toNat - 97) * 26 + (c3.toNat - 97)⟩ := by
    cases h; rfl
  obtain ⟨b00, b01⟩ := toNat_bounds_of_lower hc0
  obtain ⟨b10, b11⟩ := toNat_bounds_of_lower hc1
  obtain ⟨b20, b21⟩ := toNat_bounds_of_lower hc2
  obtain ⟨b30, b31⟩ := toNat_bounds_of_lower hc3
  obtain ⟨g0, g1, g2, g3⟩ := get_letter_digits (c0.toNat - 97) (c1.toNat - 97)
    (c2.toNat - 97) (c3.toNat - 97) (by omega) (by omega) (by omega) (by omega)
  refine ⟨?_, rfl, hlow, ?_⟩
  · have hrange : List.range 4 = [0, 1, 2, 3] := rfl
    rw [hw, Word.render, hrange]
    simp only [List.map_cons, List.map_nil, g0, g1, g2, g3]
    have e0 : 97 + (c0.toNat - 97) = c0.toNat := by omega
    have e1 : 97 + (c1.toNat - 97) = c1.toNat := by omega
    have e2 : 97 + (c2.toNat - 97) = c2.toNat := by omega
    have e3 : 97 + (c3.toNat - 97) = c3.toNat := by omega
    rw [e0, e1, e2, e3, Char.ofNat_toNat, Char.ofNat_toNat, Char.ofNat_toNat,
      Char.ofNat_toNat]
  · rw [hw]
    show (c0.toNat - 97) * 17576 + (c1.toNat - 97) * 676 +
      (c2.toNat - 97) * 26 + (c3.toNat - 97) < 456976
    omega

lemma new_ok_of_valid {s : List Char} (hlen : s.length = 4)
    (hlc : ∀ c ∈ s, isLowerAZ c = true) : ∃ w, Word.new s = .ok w := by
  obtain ⟨c0, c1, c2, c3, rfl⟩ := length_eq_four' hlen
  exact ⟨_, word_new_four c0 c1 c2 c3 (hlc c0 (by simp)) (hlc c1 (by simp))
    (hlc c2 (by simp)) (hlc c3 (by simp))⟩

/-! ## Distance lemmas -/

lemma bne_comm_nat (x y : Nat) : (x != y) = (y != x) := by
  by_cases h : x = y
  · subst h; rfl
  · have h1 : (x != y) = true := by simpa [bne_iff_ne] using h
    have h2 : (y != x) = true := by simpa [bne_iff_ne] using (Ne.symm h)
    rw [h1, h2]

lemma distance_expand (a b : Word) :
    a.distance b =
      (if a.get_letter 0 = b.get_letter 0 then 0 else 1) +
      (if a.get_letter 1 = b.get_letter 1 then 0 else 1) +
      (if a.get_letter 2 = b.get_letter 2 then 0 else 1) +
      (if a.get_letter 3 = b.get_letter 3 then 0 else 1) := by
  have hr : List.range 4 = [0, 1, 2, 3] := rfl
  rw [Word.distance, hr]
  by_cases h0 : a.get_letter 0 = b.get_letter 0 <;>
  by_cases h1 : a.get_letter 1 = b.get_letter 1 <;>
  by_cases h2 : a.get_letter 2 = b.get_letter 2 <;>
  by_cases h3 : a.get_letter 3 = b.get_letter 3 <;>
  simp [List.countP_cons, h0, h1, h2, h3]

lemma distance_self (a : Word) : a.distance a = 0 := by
  rw [distance_expand]; simp

lemma distance_comm (a b : Word) : a.distance b = b.distance a := by
  rw [Word.distance, Word.distance]
  have : (fun i => a.get_letter i != b.get_letter i) =
      (fun i => b.get_letter i != a.get_letter i) := funext fun i => bne_comm_nat _ _
  rw [this]

lemma distance_le_four (a b : Word) : a.distance b ≤ 4 := by
  rw [distance_expand]
  split_ifs <;> omega

lemma tri_ind (x y z : Nat) :
    (if x = z then 0 else 1) ≤ (if x = y then 0 else 1) + ((if y = z then 0 else 1) : Nat) := by
  split_ifs <;> omega

lemma distance_triangle (a b c : Word) : a.distance c ≤ a.distance b + b.distance c := by
  rw [distance_expand, distance_expand, distance_expand]
  have t0 := tri_ind (a.get_letter 0) (b.get_letter 0) (c.get_letter 0)
  have t1 := tri_ind (a.get_letter 1) (b.get_letter 1) (c.get_letter 1)
  have t2 := tri_ind (a.get_letter 2) (b.get_letter 2) (c.get_letter 2)
  have t3 := tri_ind (a.get_letter 3) (b.get_letter 3) (c.get_letter 3)
  omega

lemma distance_ne_of_one {a b : Word} (h : a.distance b = 1) : a ≠ b := by
  intro he
  rw [he, distance_self] at h
  cases h

/-! ## Base-26 digit lemmas -/

lemma val_decomp {a : Word} (ha : a.val < 456976) :
    a.val = a.get_letter 0 * 17576 + a.get_letter 1 * 676 +
      a.get_letter 2 * 26 + a.get_letter 3 := by
  simp only [Word.get_letter]
  norm_num
  omega

lemma get_letter_sub {w k dim : Nat} (hw : w < 456976) (hdim : dim < 4)
    (hk1 : 1 ≤ k) (hk2 : k ≤ (Word.mk w).get_letter dim) (d : Nat) (hd : d < 4) :
    (Word.mk (w - k * 26 ^ (3 - dim))).get_letter d =
      if d = dim then (Word.mk w).get_letter d - k else (Word.mk w).get_letter d := by
  simp only [Word.get_letter] at hk2 ⊢
  interval_cases dim <;> interval_cases d <;> norm_num at hk2 ⊢ <;> omega

lemma GenW_lt {a b : Word} (h : GenW a b) : b.val < a.val := by
  obtain ⟨dim, k, hdim, hk1, hk2, hb⟩ := h
  simp only [Word.get_letter] at hk2
  interval_cases dim <;> norm_num at hk2 hb <;> omega

lemma distance_one_of_GenW {a b : Word} (ha : a.val < 456976) (h : GenW a b) :
    a.distance b = 1 := by
  obtain ⟨dim, k, hdim, hk1, hk2, hb⟩ := h
  have heta : Word.mk a.val = a := rfl
  have hbw : b = Word.mk (a.val - k * 26 ^ (3 - dim)) := by
    cases b
    simpa using hb
  have hk2' : k ≤ (Word.mk a.val).get_letter dim := by rw [heta]; exact hk2
  subst hbw
  rw [distance_expand]
  rw [get_letter_sub ha hdim hk1 hk2' 0 (by norm_num),
    get_letter_sub ha hdim hk1 hk2' 1 (by norm_num),
    get_letter_sub ha hdim hk1 hk2' 2 (by norm_num),
    get_letter_sub ha hdim hk1 hk2' 3 (by norm_num)]
  rw [heta]
  interval_cases dim <;> norm_num <;> omega

lemma distance_one_cases {a b : Word} (hdist : a.distance b = 1) :
    (a.get_letter 0 ≠ b.get_letter 0 ∧ a.get_letter 1 = b.get_letter 1 ∧
     a.get_letter 2 = b.get_letter 2 ∧ a.get_letter 3 = b.get_letter 3) ∨
    (a.get_letter 0 = b.get_letter 0 ∧ a.get_letter 1 ≠ b.get_letter 1 ∧
     a.get_letter 2 = b.get_letter 2 ∧ a.get_letter 3 = b.get_letter 3) ∨
    (a.get_letter 0 = b.get_letter 0 ∧ a.get_letter 1 = b.get_letter 1 ∧
     a.get_letter 2 ≠ b.get_letter 2 ∧ a.get_letter 3 = b.get_letter 3) ∨
    (a.get_letter 0 = b.get_letter 0 ∧ a.get_letter 1 = b.get_letter 1 ∧
     a.get_letter 2 = b.get_letter 2 ∧ a.get_letter 3 ≠ b.get_letter 3) := by
  rw [distance_expand] at hdist
  split_ifs at hdist <;> first | (exfalso; omega) | tauto

lemma GenW_of_distance_one {a b : Word} (ha : a.val < 456976) (hb : b.val < 456976)
    (hdist : a.distance b = 1) (hlt : b.val < a.val) : GenW a b := by
  have da := val_decomp ha
  have db := val_decomp hb
  rcases distance_one_cases hdist with ⟨h0, h1, h2, h3⟩ | ⟨h0, h1, h2, h3⟩ |
    ⟨h0, h1, h2, h3⟩ | ⟨h0, h1, h2, h3⟩
  · exact ⟨0, a.get_letter 0 - b.get_letter 0, by norm_num, by omega, by omega,
      by norm_num; omega⟩
  · exact ⟨1, a.get_letter 1 - b.get_letter 1, by norm_num, by omega, by omega,
      by norm_num; omega⟩
  · exact ⟨2, a.get_letter 2 - b.get_letter 2, by norm_num, by omega, by omega,
      by norm_num; omega⟩
  · exact ⟨3, a.get_letter 3 - b.get_letter 3, by norm_num, by omega, by omega,
      by norm_num; omega⟩

lemma word_eq_of_val_eq {a b : Word} (h : a.val = b.val) : a = b := by
  cases a; cases b; simpa using h

lemma EdgeW_iff {a b : Word} (ha : a.val < 456976) (hb : b.val < 456976) :
    (GenW a b ∨ GenW b a) ↔ a.distance b = 1 := by
  constructor
  · rintro (h | h)
    · exact distance_one_of_GenW ha h
    · rw [distance_comm]
      exact distance_one_of_GenW hb h
  · intro h
    rcases Nat.lt_trichotomy b.val a.val with hlt | heq | hgt
    · exact Or.inl (GenW_of_distance_one ha hb h hlt)
    · exfalso
      rw [word_eq_of_val_eq heq.symm, distance_self] at h
      cases h
    · exact Or.inr (GenW_of_distance_one hb ha (by rw [distance_comm]; exact h) hgt)

lemma gen_sub_inj {w k1 k2 d1 d2 : Nat} (hw : w < 456976)
    (hd1 : d1 < 4) (hd2 : d2 < 4)
    (h11 : 1 ≤ k1) (h12 : k1 ≤ (Word.mk w).get_letter d1)
    (h21 : 1 ≤ k2) (h22 : k2 ≤ (Word.mk w).get_letter d2)
    (heq : w - k1 * 26 ^ (3 - d1) = w - k2 * 26 ^ (3 - d2)) :
    d1 = d2 ∧ k1 = k2 := by
  simp only [Word.get_letter] at h12 h22
  interval_cases d1 <;> interval_cases d2 <;> norm_num at h12 h22 heq ⊢ <;> omega

/-! ## Claim theorems: the codec -/

/-- C2: for every 4-character string of lowercase letters `a`-`z`, encoding
via `Word::new` succeeds and the `Display` rendering (decoding) yields the
same string back. -/
theorem C2_encode_decode_roundtrip (s : List Char) (hlen : s.length = 4)
    (hlc : ∀ c ∈ s, 'a' ≤ c ∧ c ≤ 'z') :
    ∃ w, Word.new s = .ok w ∧ w.render = s := by
  obtain ⟨w, hw⟩ := new_ok_of_valid hlen (fun c hc => isLowerAZ_eq_true_iff.mpr (hlc c hc))
  exact ⟨w, hw, (render_of_new hw).1⟩

/-- Witness for C2 at the concrete string "weav". -/
theorem C2_encode_decode_roundtrip_witness :
    ∃ w, Word.new ['w', 'e', 'a', 'v'] = .ok w ∧ w.render = ['w', 'e', 'a', 'v'] :=
  C2_encode_decode_roundtrip ['w', 'e', 'a', 'v'] (by decide) (by decide)

/-- C4: `Word::new` rejects (with the modelled `assert!` panic, the
`InvalidWord` failure of the spec) exactly the strings whose length differs
from 4 or containing a character outside `a`-`z`; every valid 4-letter
lowercase string is mapped to an integer below `26^4`, uniquely (distinct
valid strings receive distinct codes). -/
theorem C4_word_new_validation (s : List Char) :
    ((∃ err, Word.new s = .error err) ↔
      (s.length ≠ 4 ∨ ∃ c ∈ s, ¬('a' ≤ c ∧ c ≤ 'z'))) ∧
    (∀ w, Word.new s = .ok w → w.val < 26 ^ 4) ∧
    (∀ t w, Word.new s = .ok w → Word.new t = .ok w → s = t) := by
  refine ⟨⟨?_, ?_⟩, ?_, ?_⟩
  · rintro ⟨err, herr⟩
    by_contra hcon
    push_neg at hcon
    obtain ⟨hlen, hgood⟩ := hcon
    obtain ⟨w, hw⟩ := new_ok_of_valid hlen
      (fun c hc => isLowerAZ_eq_true_iff.mpr (hgood c hc))
    rw [hw] at herr
    cases herr
  · intro hbad
    by_cases hb : strByteLen s = 4
    · have hbadc : ∃ c ∈ s, ¬ isLowerAZ c = true := by
        rcases hbad with hlen | ⟨c, hc, hcbad⟩
        · by_contra hall
          push_neg at hall
          have := strByteLen_of_lower hall
          omega
        · exact ⟨c, hc, fun ht => hcbad (isLowerAZ_eq_true_iff.mp ht)⟩
      obtain ⟨e, he⟩ := encodeChars_error_of_bad s 0 hbadc
      exact ⟨e, by rw [Word.new, if_neg (by omega), he]; rfl⟩
    · exact ⟨.wrongLength, by rw [Word.new, if_pos hb]⟩
  · intro w hok
    have := (render_of_new hok).2.2.2
    rw [show (26 : Nat) ^ 4 = 456976 by norm_num]
    exact this
  · intro t w hs ht
    rw [← (render_of_new hs).1, ← (render_of_new ht).1]

/-- Witness for C4: "abc" is rejected; "abcd" encodes to 731 < 26^4. -/
theorem C4_word_new_validation_witness :
    (∃ err, Word.new ['a', 'b', 'c'] = .error err) ∧ (Word.mk 731).val < 26 ^ 4 :=
  ⟨(C4_word_new_validation ['a', 'b', 'c']).1.mpr (Or.inl (by decide)),
   (C4_word_new_validation ['a', 'b', 'c', 'd']).2.1 ⟨731⟩ (by decide)⟩

/-- C6: `distance(a,a) = 0`, `distance` is symmetric, and `distance` is
bounded by the configured word length 4. -/
theorem C6_distance_props (a b : Word) :
    a.distance a = 0 ∧ a.distance b = b.distance a ∧ a.distance b ≤ 4 :=
  ⟨distance_self a, distance_comm a b, distance_le_four a b⟩

/-! ## List access lemmas -/

lemma getD_set_eq {α : Type} [Inhabited α] (l : List α) (i : Nat) (a : α)
    (h : i < l.length) : (l.set i a).getD i default = a := by
  rw [List.getD_eq_getElem?_getD, List.getElem?_set_self h]
  rfl

lemma getD_set_ne {α : Type} [Inhabited α] (l : List α) {i j : Nat} (a : α)
    (h : i ≠ j) : (l.set i a).getD j default = l.getD j default := by
  rw [List.getD_eq_getElem?_getD, List.getElem?_set_ne h, ← List.getD_eq_getElem?_getD]

lemma getD_oob {α : Type} [Inhabited α] {l : List α} {i : Nat} (h : l.length ≤ i) :
    l.getD i default = default := by
  rw [List.getD_eq_getElem?_getD, List.getElem?_eq_none h]
  rfl

lemma getD_map_word (L : List Word) (i : Nat) :
    ((L.map (fun w => (⟨w, []⟩ : WordNode))).getD i default).word = L.getD i default := by
  rw [List.getD_eq_getElem?_getD, List.getElem?_map, List.getD_eq_getElem?_getD]
  cases L[i]? <;> rfl

lemma getD_map_conn (L : List Word) (i : Nat) :
    ((L.map (fun w => (⟨w, []⟩ : WordNode))).getD i default).connected = [] := by
  rw [List.getD_eq_getElem?_getD, List.getElem?_map]
  cases L[i]? <;> rfl

/-! ## Sorting and dedup lemmas -/

lemma mem_dedupWords : ∀ (l : List Word) (x : Word), x ∈ dedupWords l ↔ x ∈ l
  | [], _ => Iff.rfl
  | [_], _ => Iff.rfl
  | a :: b :: t, x => by
    rw [dedupWords]
    by_cases hab : a = b
    · rw [if_pos hab, mem_dedupWords (b :: t) x]
      subst hab
      simp
    · rw [if_neg hab, List.mem_cons, List.mem_cons, mem_dedupWords (b :: t) x]

lemma dedupWords_strict : ∀ (l : List Word), l.Pairwise wordLe →
    (dedupWords l).Pairwise (fun a b : Word => a.val < b.val)
  | [], _ => by rw [dedupWords]; exact List.Pairwise.nil
  | [a], _ => by rw [dedupWords]; exact List.pairwise_singleton _ a
  | a :: b :: t, h => by
    rw [dedupWords]
    obtain ⟨ha, hbt⟩ := List.pairwise_cons.mp h
    by_cases hab : a = b
    · rw [if_pos hab]
      exact dedupWords_strict (b :: t) hbt
    · rw [if_neg hab]
      refine List.pairwise_cons.mpr ⟨?_, dedupWords_strict (b :: t) hbt⟩
      intro x hx
      rw [mem_dedupWords] at hx
      have hb : b.val ≤ x.val := by
        rcases List.mem_cons.mp hx with rfl | hxt
        · exact le_refl _
        · exact List.pairwise_cons.mp hbt |>.1 x hxt
      have hab' : a.val ≤ b.val := ha b (by simp)
      have hane : a.val ≠ b.val := fun he => hab (word_eq_of_val_eq he)
      omega

lemma sortedWords_strict (ws : List Word) :
    (dedupWords (sortWords ws)).Pairwise (fun a b : Word => a.val < b.val) :=
  dedupWords_strict _ (List.sorted_insertionSort wordLe ws)

lemma mem_sortedWords (ws : List Word) (x : Word) :
    x ∈ dedupWords (sortWords ws) ↔ x ∈ ws := by
  rw [mem_dedupWords]
  exact (List.perm_insertionSort wordLe ws).mem_iff

lemma strict_getD_lt {L : List Word} (h : L.Pairwise (fun a b : Word => a.val < b.val))
    {i j : Nat} (hij : i < j) (hj : j < L.length) :
    (L.getD i default).val < (L.getD j default).val := by
  have hi : i < L.length := lt_trans hij hj
  have := List.pairwise_iff_get.mp h ⟨i, hi⟩ ⟨j, hj⟩ hij
  rw [List.getD_eq_getElem _ _ hi, List.getD_eq_getElem _ _ hj]
  simpa [List.get_eq_getElem] using this

lemma strict_getD_inj {L : List Word} (h : L.Pairwise (fun a b : Word => a.val < b.val))
    {i j : Nat} (hi : i < L.length) (hj : j < L.length)
    (he : L.getD i default = L.getD j default) : i = j := by
  rcases Nat.lt_trichotomy i j with hlt | heq | hgt
  · have := strict_getD_lt h hlt hj
    rw [he] at this
    omega
  · exact heq
  · have := strict_getD_lt h hgt hi
    rw [he] at this
    omega

lemma strict_idx_lt {L : List Word} (h : L.Pairwise (fun a b : Word => a.val < b.val))
    {i j : Nat} (hi : i < L.length) (hj : j < L.length)
    (hv : (L.getD i default).val < (L.getD j default).val) : i < j := by
  rcases Nat.lt_trichotomy i j with hlt | heq | hgt
  · exact hlt
  · subst heq; omega
  · have := strict_getD_lt h hgt hi
    omega

/-! ## addConn and pushEdges lemmas -/

lemma addConn_length (nodes : List WordNode) (a b : Nat) :
    (addConn nodes a b).length = nodes.length := by
  unfold addConn
  cases h : nodes[a]? <;> simp

lemma addConn_oob {nodes : List WordNode} {a : Nat} (h : nodes.length ≤ a) (b : Nat) :
    addConn nodes a b = nodes := by
  unfold addConn
  rw [List.getElem?_eq_none h]

lemma addConn_getD (nodes : List WordNode) {a : Nat} (b : Nat) (ha : a < nodes.length)
    (i : Nat) :
    (addConn nodes a b).getD i default =
      (if i = a then
        { nodes.getD a default with
          connected := (nodes.getD a default).connected ++ [b] }
       else nodes.getD i default) := by
  have hsome : nodes[a]? = some (nodes.getD a default) := by
    rw [List.getD_eq_getElem _ _ ha, List.getElem?_eq_getElem ha]
  simp only [addConn, hsome]
  by_cases hia : i = a
  · subst hia
    rw [if_pos rfl, getD_set_eq _ _ _ ha]
  · rw [if_neg hia, getD_set_ne _ _ (Ne.symm hia)]

lemma addConn_word (nodes : List WordNode) (a b i : Nat) :
    ((addConn nodes a b).getD i default).word = (nodes.getD i default).word := by
  rcases Nat.lt_or_ge a nodes.length with ha | ha
  · rw [addConn_getD nodes b ha i]
    by_cases hia : i = a <;> simp [hia]
  · rw [addConn_oob ha]

lemma count_append_single (l : List Nat) (x j : Nat) :
    (l ++ [j]).count x = l.count x + if x = j then 1 else 0 := by
  rw [List.count_append, List.count_singleton]
  by_cases h : x = j
  · subst h; simp
  · simp [h, Ne.symm h]

lemma addConn_count (nodes : List WordNode) {a : Nat} (b : Nat) (ha : a < nodes.length)
    (i x : Nat) :
    ((addConn nodes a b).getD i default).connected.count x =
      (nodes.getD i default).connected.count x + if i = a ∧ x = b then 1 else 0 := by
  rw [addConn_getD nodes b ha i]
  by_cases hia : i = a
  · subst hia
    rw [if_pos rfl]
    show ((nodes.getD i default).connected ++ [b]).count x = _
    rw [count_append_single]
    by_cases hxb : x = b <;> simp [hxb]
  · rw [if_neg hia]
    simp [hia]

lemma pushEdges_nil (idx : Nat) (nodes : List WordNode) : pushEdges idx nodes [] = nodes :=
  rfl

lemma pushEdges_cons (idx : Nat) (nodes : List WordNode) (j : Nat) (H : List Nat) :
    pushEdges idx nodes (j :: H) =
      pushEdges idx (addConn (addConn nodes j idx) idx j) H := rfl

lemma pushEdges_append (idx : Nat) (nodes : List WordNode) (A B : List Nat) :
    pushEdges idx nodes (A ++ B) = pushEdges idx (pushEdges idx nodes A) B :=
  List.foldl_append _ _ _ _

lemma pushEdges_length : ∀ (H : List Nat) (nodes : List WordNode) (idx : Nat),
    (pushEdges idx nodes H).length = nodes.length
  | [], _, _ => rfl
  | j :: H, nodes, idx => by
    rw [pushEdges_cons, pushEdges_length H, addConn_length, addConn_length]

lemma pushEdges_word : ∀ (H : List Nat) (nodes : List WordNode) (idx i : Nat),
    ((pushEdges idx nodes H).getD i default).word = (nodes.getD i default).word
  | [], _, _, _ => rfl
  | j :: H, nodes, idx, i => by
    rw [pushEdges_cons, pushEdges_word H, addConn_word, addConn_word]

lemma pushEdges_count : ∀ (H : List Nat) (nodes : List WordNode) (idx : Nat),
    idx < nodes.length → (∀ j ∈ H, j < nodes.length ∧ j ≠ idx) → ∀ (i x : Nat),
    ((pushEdges idx nodes H).getD i default).connected.count x =
      (nodes.getD i default).connected.count x +
        (if i = idx then H.count x else if x = idx then H.count i else 0)
  | [], nodes, idx, _, _, i, x => by
    rw [pushEdges_nil]
    simp
  | j :: H, nodes, idx, hidx, hH, i, x => by
    obtain ⟨hjlen, hjne⟩ := hH j (by simp)
    rw [pushEdges_cons]
    rw [pushEdges_count H _ idx
      (by rw [addConn_length, addConn_length]; exact hidx)
      (by intro y hy
          rw [addConn_length, addConn_length]
          exact hH y (by simp [hy])) i x]
    rw [addConn_count _ j (by rw [addConn_length]; exact hidx) i x]
    rw [addConn_count _ idx hjlen i x]
    rw [List.count_cons, List.count_cons]
    simp only [beq_iff_eq]
    split_ifs <;> omega

/-! ## Scan and hits lemmas -/

lemma scanDim_eq (grid : Nat → Option Nat) (idx : Nat) (w : Word) (dim : Nat)
    (nodes : List WordNode) :
    scanDim grid idx w dim nodes = pushEdges idx nodes (dimHits grid w dim) := by
  unfold scanDim dimHits pushEdges
  generalize (List.range (w.get_letter dim)).map (· + 1) = ks
  induction ks generalizing nodes with
  | nil => rfl
  | cons k ks ih =>
    simp only [List.foldl_cons, List.filterMap_cons]
    cases grid (w.val - k * 26 ^ (3 - dim)) with
    | none => exact ih _
    | some j =>
      simp only [List.foldl_cons]
      exact ih _

lemma connectStep_eq (nodes : List WordNode) (g : Nat → Option Nat) (m : Nat) (w : Word) :
    connectStep (nodes, g) (m, w) =
      (pushEdges m nodes (allHits (gridSet g w.val m) w), gridSet g w.val m) := by
  show ([0, 1, 2, 3].foldl
      (fun nds dim => scanDim (gridSet g w.val m) m w dim nds) nodes,
      gridSet g w.val m) = _
  rw [Prod.mk.injEq]
  refine ⟨?_, rfl⟩
  simp only [List.foldl_cons, List.foldl_nil]
  rw [scanDim_eq, scanDim_eq, scanDim_eq, scanDim_eq, allHits,
    pushEdges_append, pushEdges_append, pushEdges_append]

lemma mem_ks_iff {letter k : Nat} :
    k ∈ (List.range letter).map (· + 1) ↔ 1 ≤ k ∧ k ≤ letter := by
  simp only [List.mem_map, List.mem_range]
  constructor
  · rintro ⟨x, hx, rfl⟩
    omega
  · rintro ⟨h1, h2⟩
    exact ⟨k - 1, by omega, by omega⟩

lemma nodup_ks (letter : Nat) : ((List.range letter).map (· + 1)).Nodup :=
  List.Nodup.map (fun a b h => by omega) (List.nodup_range letter)

lemma countP_eq_one_of_unique {l : List Nat} {p : Nat → Bool} (hnd : l.Nodup)
    (huniq : ∀ a ∈ l, ∀ b ∈ l, p a = true → p b = true → a = b)
    (hex : ∃ a ∈ l, p a = true) : l.countP p = 1 := by
  induction l with
  | nil => simp at hex
  | cons a l ih =>
    rw [List.countP_cons]
    obtain ⟨hal, hlnd⟩ := List.nodup_cons.mp hnd
    by_cases hpa : p a = true
    · have hrest : l.countP p = 0 := by
        rw [List.countP_eq_zero]
        intro b hb
        intro hpb
        have hab : a = b := huniq a (by simp) b (by simp [hb]) hpa hpb
        exact hal (hab ▸ hb)
      rw [hrest, hpa]
      simp
    · obtain ⟨b, hb, hpb⟩ := hex
      rcases List.mem_cons.mp hb with rfl | hbl
      · exact absurd hpb hpa
      · rw [ih hlnd (fun x hx y hy => huniq x (by simp [hx]) y (by simp [hy]))
          ⟨b, hbl, hpb⟩]
        simp [hpa]

lemma countP_eq_zero_of_none {l : List Nat} {p : Nat → Bool}
    (h : ∀ a ∈ l, ¬ p a = true) : l.countP p = 0 :=
  List.countP_eq_zero.mpr h

lemma count_dimHits_pos {L : List Word} {mq : Nat} {g : Nat → Option Nat}
    (hg : GridInv L mq g) {w : Word} (hw : w.val < 456976) {dim : Nat} (hdim : dim < 4)
    {j : Nat}
    (hex : ∃ k, 1 ≤ k ∧ k ≤ w.get_letter dim ∧ j < mq ∧ j < L.length ∧
      (L.getD j default).val = w.val - k * 26 ^ (3 - dim)) :
    (dimHits g w dim).count j = 1 := by
  rw [dimHits, List.count_filterMap]
  have heta : Word.mk w.val = w := rfl
  apply countP_eq_one_of_unique (nodup_ks _)
  · intro a ha b hb hpa hpb
    rw [beq_iff_eq] at hpa hpb
    rw [mem_ks_iff] at ha hb
    have ea := ((hg _ _).mp hpa).2.2
    have eb := ((hg _ _).mp hpb).2.2
    have hab : w.val - a * 26 ^ (3 - dim) = w.val - b * 26 ^ (3 - dim) := by
      rw [← ea, ← eb]
    exact (gen_sub_inj hw hdim hdim ha.1 (by rw [heta]; exact ha.2) hb.1
      (by rw [heta]; exact hb.2) hab).2
  · obtain ⟨k, h1, h2, h3, h4, h5⟩ := hex
    refine ⟨k, mem_ks_iff.mpr ⟨h1, h2⟩, ?_⟩
    rw [beq_iff_eq]
    exact (hg _ _).mpr ⟨h3, h4, h5⟩

lemma count_dimHits_zero {L : List Word} {mq : Nat} {g : Nat → Option Nat}
    (hg : GridInv L mq g) {w : Word} {dim : Nat} {j : Nat}
    (hnone : ¬ ∃ k, 1 ≤ k ∧ k ≤ w.get_letter dim ∧ j < mq ∧ j < L.length ∧
      (L.getD j default).val = w.val - k * 26 ^ (3 - dim)) :
    (dimHits g w dim).count j = 0 := by
  rw [dimHits, List.count_filterMap]
  apply countP_eq_zero_of_none
  intro k hk hpk
  rw [beq_iff_eq] at hpk
  rw [mem_ks_iff] at hk
  obtain ⟨h1, h2, h3⟩ := (hg _ _).mp hpk
  exact hnone ⟨k, hk.1, hk.2, h1, h2, h3⟩

lemma count_allHits_pos {L : List Word} {mq : Nat} {g : Nat → Option Nat}
    (hg : GridInv L mq g) {w : Word} (hw : w.val < 456976) {j : Nat}
    (hj : j < L.length) (hjm : j < mq) (hgen : GenW w (L.getD j default)) :
    (allHits g w).count j = 1 := by
  obtain ⟨dim0, k0, hdim0, hk01, hk02, hbv⟩ := hgen
  have heta : Word.mk w.val = w := rfl
  have hP : ∃ k, 1 ≤ k ∧ k ≤ w.get_letter dim0 ∧ j < mq ∧ j < L.length ∧
      (L.getD j default).val = w.val - k * 26 ^ (3 - dim0) :=
    ⟨k0, hk01, hk02, hjm, hj, hbv⟩
  have hnot : ∀ d, d < 4 → d ≠ dim0 →
      ¬ ∃ k, 1 ≤ k ∧ k ≤ w.get_letter d ∧ j < mq ∧ j < L.length ∧
        (L.getD j default).val = w.val - k * 26 ^ (3 - d) := by
    rintro d hd hne ⟨k, h1, h2, _, _, hv⟩
    have hab : w.val - k * 26 ^ (3 - d) = w.val - k0 * 26 ^ (3 - dim0) := by
      rw [← hv, hbv]
    exact hne (gen_sub_inj hw hd hdim0 h1 (by rw [heta]; exact h2) hk01
      (by rw [heta]; exact hk02) hab).1
  rw [allHits, List.count_append, List.count_append, List.count_append]
  interval_cases dim0
  · rw [count_dimHits_pos hg hw (by norm_num) hP,
      count_dimHits_zero hg (hnot 1 (by norm_num) (by norm_num)),
      count_dimHits_zero hg (hnot 2 (by norm_num) (by norm_num)),
      count_dimHits_zero hg (hnot 3 (by norm_num) (by norm_num))]
  · rw [count_dimHits_pos hg hw (by norm_num) hP,
      count_dimHits_zero hg (hnot 0 (by norm_num) (by norm_num)),
      count_dimHits_zero hg (hnot 2 (by norm_num) (by norm_num)),
      count_dimHits_zero hg (hnot 3 (by norm_num) (by norm_num))]
  · rw [count_dimHits_pos hg hw (by norm_num) hP,
      count_dimHits_zero hg (hnot 0 (by norm_num) (by norm_num)),
      count_dimHits_zero hg (hnot 1 (by norm_num) (by norm_num)),
      count_dimHits_zero hg (hnot 3 (by norm_num) (by norm_num))]
  · rw [count_dimHits_pos hg hw (by norm_num) hP,
      count_dimHits_zero hg (hnot 0 (by norm_num) (by norm_num)),
      count_dimHits_zero hg (hnot 1 (by norm_num) (by norm_num)),
      count_dimHits_zero hg (hnot 2 (by norm_num) (by norm_num))]

lemma count_allHits_zero {L : List Word} {mq : Nat} {g : Nat → Option Nat}
    (hg : GridInv L mq g) {w : Word} {j : Nat}
    (hnot : ¬ (j < L.length ∧ j < mq ∧ GenW w (L.getD j default))) :
    (allHits g w).count j = 0 := by
  have hd : ∀ d, d < 4 →
      ¬ ∃ k, 1 ≤ k ∧ k ≤ w.get_letter d ∧ j < mq ∧ j < L.length ∧
        (L.getD j default).val = w.val - k * 26 ^ (3 - d) := by
    rintro d hdlt ⟨k, h1, h2, h3, h4, h5⟩
    exact hnot ⟨h4, h3, ⟨d, k, hdlt, h1, h2, h5⟩⟩
  rw [allHits, List.count_append, List.count_append, List.count_append,
    count_dimHits_zero hg (hd 0 (by norm_num)),
    count_dimHits_zero hg (hd 1 (by norm_num)),
    count_dimHits_zero hg (hd 2 (by norm_num)),
    count_dimHits_zero hg (hd 3 (by norm_num))]

/-! ## The connect_words fold -/

lemma gridInv_zero (L : List Word) : GridInv L 0 (fun _ => none) := by
  intro v j
  constructor
  · intro h
    exact absurd h (by simp)
  · rintro ⟨h, _, _⟩
    omega

lemma gridInv_step {L : List Word} (hL : L.Pairwise (fun a b : Word => a.val < b.val))
    {m : Nat} (hm : m < L.length) {g : Nat → Option Nat} (hg : GridInv L m g) :
    GridInv L (m + 1) (gridSet g (L.getD m default).val m) := by
  intro v j
  simp only [gridSet]
  by_cases hv : v = (L.getD m default).val
  · subst hv
    rw [if_pos rfl]
    constructor
    · intro h
      have hj := Option.some.inj h
      subst hj
      exact ⟨by omega, hm, rfl⟩
    · rintro ⟨h1, h2, h3⟩
      have hjm : j = m := strict_getD_inj hL h2 hm (word_eq_of_val_eq h3)
      subst hjm
      rfl
  · rw [if_neg hv]
    rw [hg v j]
    constructor
    · rintro ⟨h1, h2, h3⟩
      exact ⟨by omega, h2, h3⟩
    · rintro ⟨h1, h2, h3⟩
      refine ⟨?_, h2, h3⟩
      rcases Nat.lt_or_ge j m with h | h
      · exact h
      · exfalso
        have hjm : j = m := by omega
        subst hjm
        exact hv h3.symm

lemma nodesSpec_zero (L : List Word) :
    NodesSpec L 0 (L.map (fun w => (⟨w, []⟩ : WordNode))) := by
  refine ⟨by simp, getD_map_word L, ?_⟩
  intro i j
  constructor
  · rintro ⟨h, _, _⟩
    omega
  · intro _
    rw [getD_map_conn]
    rfl

lemma nodesSpec_step {L : List Word} (hL : L.Pairwise (fun a b : Word => a.val < b.val))
    (hvalid : ∀ w ∈ L, w.val < 456976) {m : Nat} (hm : m < L.length)
    {nodes : List WordNode} (hns : NodesSpec L m nodes)
    {g' : Nat → Option Nat} (hg' : GridInv L (m + 1) g') :
    NodesSpec L (m + 1) (pushEdges m nodes (allHits g' (L.getD m default))) := by
  obtain ⟨hlen, hwords, hcounts⟩ := hns
  have hwm : (L.getD m default).val < 456976 := by
    rw [List.getD_eq_getElem _ _ hm]
    exact hvalid _ (List.getElem_mem hm)
  have hHmem : ∀ j ∈ allHits g' (L.getD m default),
      j < L.length ∧ j < m + 1 ∧ GenW (L.getD m default) (L.getD j default) := by
    intro j hj
    by_contra hcon
    have hz : (allHits g' (L.getD m default)).count j = 0 := by
      apply count_allHits_zero hg'
      rintro ⟨h1, h2, h3⟩
      exact hcon ⟨h1, h2, h3⟩
    exact (List.count_eq_zero.mp hz) hj
  have hH : ∀ j ∈ allHits g' (L.getD m default), j < nodes.length ∧ j ≠ m := by
    intro j hj
    obtain ⟨h1, _, h3⟩ := hHmem j hj
    refine ⟨by omega, ?_⟩
    intro hjm
    subst hjm
    exact absurd (GenW_lt h3) (by omega)
  refine ⟨by rw [pushEdges_length, hlen], fun i => by rw [pushEdges_word, hwords], ?_⟩
  intro i x
  have hc := pushEdges_count (allHits g' (L.getD m default)) nodes m
    (by omega) hH i x
  by_cases him : i = m
  · subst him
    rw [hc, if_pos rfl]
    have hold : (nodes.getD i default).connected.count x = 0 :=
      (hcounts i x).2 (fun h => by omega)
    rw [hold]
    constructor
    · rintro ⟨h1, h2, h3⟩
      have hgen : GenW (L.getD i default) (L.getD x default) := by
        rcases h3 with h | h
        · exact h
        · exfalso
          have hvlt := GenW_lt h
          have hxn : x < L.length := by omega
          have := strict_idx_lt hL hm hxn hvlt
          omega
      have hxm : x < i := by
        have hvlt := GenW_lt hgen
        have hxn : x < L.length := by omega
        exact strict_idx_lt hL hxn hm hvlt
      rw [count_allHits_pos hg' hwm (by omega) (by omega) hgen]
    · intro hneg
      rw [count_allHits_zero hg' ?_]
      rintro ⟨hxn, hxm1, hgen⟩
      exact hneg ⟨by omega, hxm1, Or.inl hgen⟩
  · by_cases hxm : x = m
    · subst hxm
      rw [hc, if_neg him, if_pos rfl]
      have hold : (nodes.getD i default).connected.count x = 0 :=
        (hcounts i x).2 (fun h => by omega)
      rw [hold]
      constructor
      · rintro ⟨h1, h2, h3⟩
        have hgen : GenW (L.getD x default) (L.getD i default) := by
          rcases h3 with h | h
          · exfalso
            have hvlt := GenW_lt h
            have hin : i < L.length := by omega
            have := strict_idx_lt hL hm hin hvlt
            omega
          · exact h
        have him' : i < x := by
          have hvlt := GenW_lt hgen
          have hin : i < L.length := by omega
          exact strict_idx_lt hL hin hm hvlt
        rw [count_allHits_pos hg' hwm (by omega) (by omega) hgen]
      · intro hneg
        rw [count_allHits_zero hg' ?_]
        rintro ⟨hin, him1, hgen⟩
        exact hneg ⟨him1, by omega, Or.inr hgen⟩
    · rw [hc, if_neg him, if_neg hxm]
      constructor
      · rintro ⟨h1, h2, h3⟩
        rw [(hcounts i x).1 ⟨by omega, by omega, h3⟩]
      · intro hneg
        rw [(hcounts i x).2 (fun h => hneg ⟨by omega, by omega, h.2.2⟩)]

lemma connect_fold : ∀ (rest : List Word) (L : List Word) (m : Nat)
    (nodes : List WordNode) (g : Nat → Option Nat),
    L.Pairwise (fun a b : Word => a.val < b.val) →
    (∀ w ∈ L, w.val < 456976) →
    m ≤ L.length →
    L.drop m = rest →
    NodesSpec L m nodes → GridInv L m g →
    NodesSpec L L.length ((rest.enumFrom m).foldl connectStep (nodes, g)).1
  | [], L, m, nodes, g, hL, hv, hmle, hrest, hns, hg => by
    have hm : L.length ≤ m := by
      by_contra hcon
      rw [List.drop_eq_getElem_cons (by omega)] at hrest
      cases hrest
    have hmn : m = L.length := by omega
    subst hmn
    exact hns
  | w :: rest, L, m, nodes, g, hL, hv, hmle, hrest, hns, hg => by
    have hm : m < L.length := by
      by_contra hcon
      rw [List.drop_eq_nil_of_le (by omega)] at hrest
      cases hrest
    rw [List.drop_eq_getElem_cons hm] at hrest
    injection hrest with hw hrest'
    have hwm : w = L.getD m default := by
      rw [List.getD_eq_getElem _ _ hm]
      exact hw.symm
    show NodesSpec L L.length
      (((m, w) :: rest.enumFrom (m + 1)).foldl connectStep (nodes, g)).1
    rw [List.foldl_cons, connectStep_eq nodes g m w]
    subst hwm
    exact connect_fold rest L (m + 1) _ _ hL hv (by omega) hrest'
      (nodesSpec_step hL hv hm hns (gridInv_step hL hm hg))
      (gridInv_step hL hm hg)

lemma connect_words_spec (ws : List Word) (hvalid : ∀ w ∈ ws, w.val < 456976) :
    NodesSpec (dedupWords (sortWords ws)) (dedupWords (sortWords ws)).length
      (connect_words ws) := by
  have hL := sortedWords_strict ws
  have hv : ∀ w ∈ dedupWords (sortWords ws), w.val < 456976 := by
    intro w hw
    exact hvalid w ((mem_sortedWords ws w).mp hw)
  show NodesSpec _ _
    (((dedupWords (sortWords ws)).enum.foldl connectStep
      ((dedupWords (sortWords ws)).map (fun w => ⟨w, []⟩), fun _ => none))).1
  rw [show (dedupWords (sortWords ws)).enum =
    (dedupWords (sortWords ws)).enumFrom 0 from rfl]
  exact connect_fold (dedupWords (sortWords ws)) (dedupWords (sortWords ws)) 0 _ _
    hL hv (by omega) rfl (nodesSpec_zero _) (gridInv_zero _)

/-! ## Consequences: adjacency structure of connect_words -/

lemma sortedWords_valid {ws : List Word} (hvalid : ∀ w ∈ ws, w.val < 456976)
    {i : Nat} (hi : i < (dedupWords (sortWords ws)).length) :
    ((dedupWords (sortWords ws)).getD i default).val < 456976 := by
  rw [List.getD_eq_getElem _ _ hi]
  exact hvalid _ ((mem_sortedWords ws _).mp (List.getElem_mem hi))

lemma connect_words_mem_conn {ws : List Word} (hvalid : ∀ w ∈ ws, w.val < 456976)
    {i j : Nat} :
    j ∈ ((connect_words ws).getD i default).connected ↔
      (i < (connect_words ws).length ∧ j < (connect_words ws).length ∧
        EdgeG (dedupWords (sortWords ws)) i j) := by
  obtain ⟨hlen, hwords, hcounts⟩ := connect_words_spec ws hvalid
  constructor
  · intro hmem
    by_contra hcon
    have hz := (hcounts i j).2 (by rw [hlen] at hcon; exact hcon)
    exact (List.count_eq_zero.mp hz) hmem
  · rintro ⟨hi, hj, he⟩
    have h1 := (hcounts i j).1 ⟨by omega, by omega, he⟩
    have : 0 < ((connect_words ws).getD i default).connected.count j := by omega
    exact List.count_pos_iff.mp this

lemma connect_words_dist_one {ws : List Word} (hvalid : ∀ w ∈ ws, w.val < 456976)
    {i j : Nat} (hi : i < (connect_words ws).length) (hj : j < (connect_words ws).length) :
    (EdgeG (dedupWords (sortWords ws)) i j ↔
      ((connect_words ws).getD i default).word.distance
        ((connect_words ws).getD j default).word = 1) := by
  obtain ⟨hlen, hwords, _⟩ := connect_words_spec ws hvalid
  rw [hwords i, hwords j]
  exact EdgeW_iff (sortedWords_valid hvalid (by omega)) (sortedWords_valid hvalid (by omega))

lemma connect_words_wf (ws : List Word) (hvalid : ∀ w ∈ ws, w.val < 456976) :
    WFGraph (connect_words ws) := by
  obtain ⟨hlen, hwords, hcounts⟩ := connect_words_spec ws hvalid
  refine ⟨?_, ?_, ?_⟩
  · intro i j hj
    exact ((connect_words_mem_conn hvalid).mp hj).2.1
  · intro i j hj
    obtain ⟨hi, hjl, he⟩ := (connect_words_mem_conn hvalid).mp hj
    exact (connect_words_dist_one hvalid hi hjl).mp he
  · intro i j hi hj he
    unfold nodeWord at he
    rw [hwords i, hwords j] at he
    exact strict_getD_inj (sortedWords_strict ws) (by omega) (by omega) he

lemma agree_expand (a b : Word) :
    (List.range 4).countP (fun k => a.get_letter k == b.get_letter k) =
      (if a.get_letter 0 = b.get_letter 0 then 1 else 0) +
      (if a.get_letter 1 = b.get_letter 1 then 1 else 0) +
      (if a.get_letter 2 = b.get_letter 2 then 1 else 0) +
      (if a.get_letter 3 = b.get_letter 3 then 1 else 0) := by
  have hr : List.range 4 = [0, 1, 2, 3] := rfl
  rw [hr]
  by_cases h0 : a.get_letter 0 = b.get_letter 0 <;>
  by_cases h1 : a.get_letter 1 = b.get_letter 1 <;>
  by_cases h2 : a.get_letter 2 = b.get_letter 2 <;>
  by_cases h3 : a.get_letter 3 = b.get_letter 3 <;>
  simp [List.countP_cons, h0, h1, h2, h3]

lemma distance_one_iff_agree_three (a b : Word) :
    a.distance b = 1 ↔
      (List.range 4).countP (fun k => a.get_letter k == b.get_letter k) = 3 := by
  rw [distance_expand, agree_expand]
  split_ifs <;> omega

/-! ## Claim theorems: the graph builder -/

/-- C3: two distinct nodes of the `connect_words` output are connected iff
their words agree on exactly 3 of the 4 letter positions (equivalently,
their `distance` is 1, the smaller word arising from the larger by
decreasing the single differing letter), and every recorded edge has the
reverse edge recorded as well. -/
theorem C3_connect_words_adjacency (ws : List Word)
    (hvalid : ∀ w ∈ ws, w.val < 26 ^ 4) (i j : Nat)
    (hi : i < (connect_words ws).length) (hj : j < (connect_words ws).length) :
    (j ∈ ((connect_words ws).getD i default).connected ↔
      (i ≠ j ∧
       (List.range 4).countP (fun k =>
         ((connect_words ws).getD i default).word.get_letter k ==
           ((connect_words ws).getD j default).word.get_letter k) = 3)) ∧
    (j ∈ ((connect_words ws).getD i default).connected →
      i ∈ ((connect_words ws).getD j default).connected) := by
  have hvalid' : ∀ w ∈ ws, w.val < 456976 := by
    intro w hw
    have := hvalid w hw
    omega
  constructor
  · rw [connect_words_mem_conn hvalid']
    constructor
    · rintro ⟨_, _, he⟩
      have hd := (connect_words_dist_one hvalid' hi hj).mp he
      refine ⟨?_, (distance_one_iff_agree_three _ _).mp hd⟩
      rintro rfl
      rw [distance_self] at hd
      cases hd
    · rintro ⟨hne, hagree⟩
      exact ⟨hi, hj, (connect_words_dist_one hvalid' hi hj).mpr
        ((distance_one_iff_agree_three _ _).mpr hagree)⟩
  · intro hmem
    obtain ⟨_, _, he⟩ := (connect_words_mem_conn hvalid').mp hmem
    exact (connect_words_mem_conn hvalid').mpr ⟨hj, hi, Or.symm he⟩

/-- Witness for C3 on the dictionary {aaaa, aaab, aaba, aabb}: nodes 0 and 1
("aaaa", "aaab") are connected and agree on 3 positions. -/
theorem C3_connect_words_adjacency_witness :
    (1 ∈ ((connect_words [⟨27⟩, ⟨0⟩, ⟨1⟩, ⟨26⟩]).getD 0 default).connected ↔
      ((0 : Nat) ≠ 1 ∧
       (List.range 4).countP (fun k =>
         ((connect_words [⟨27⟩, ⟨0⟩, ⟨1⟩, ⟨26⟩]).getD 0 default).word.get_letter k ==
           ((connect_words [⟨27⟩, ⟨0⟩, ⟨1⟩, ⟨26⟩]).getD 1 default).word.get_letter k) = 3)) ∧
    (1 ∈ ((connect_words [⟨27⟩, ⟨0⟩, ⟨1⟩, ⟨26⟩]).getD 0 default).connected →
      0 ∈ ((connect_words [⟨27⟩, ⟨0⟩, ⟨1⟩, ⟨26⟩]).getD 1 default).connected) :=
  C3_connect_words_adjacency [⟨27⟩, ⟨0⟩, ⟨1⟩, ⟨26⟩] (by decide) 0 1
    (by decide) (by decide)

/-- C10: every connection list of the `connect_words` output holds
pairwise-distinct in-range indices, never the node's own index, and each
adjacent pair is recorded exactly once in each direction. -/
theorem C10_connection_list_invariants (ws : List Word)
    (hvalid : ∀ w ∈ ws, w.val < 26 ^ 4) (i : Nat)
    (hi : i < (connect_words ws).length) :
    ((connect_words ws).getD i default).connected.Nodup ∧
    (∀ j ∈ ((connect_words ws).getD i default).connected,
      j < (connect_words ws).length ∧ j ≠ i ∧
      ((connect_words ws).getD i default).connected.count j = 1 ∧
      ((connect_words ws).getD j default).connected.count i = 1) := by
  have hvalid' : ∀ w ∈ ws, w.val < 456976 := by
    intro w hw
    have := hvalid w hw
    omega
  obtain ⟨hlen, hwords, hcounts⟩ := connect_words_spec ws hvalid'
  constructor
  · rw [List.nodup_iff_count_le_one]
    intro j
    by_cases he : i < (connect_words ws).length ∧ j < (connect_words ws).length ∧
        EdgeG (dedupWords (sortWords ws)) i j
    · rw [(hcounts i j).1 (by rw [← hlen]; exact he)]
    · rw [(hcounts i j).2 (by rw [← hlen]; exact he)]
      omega
  · intro j hj
    obtain ⟨hil, hjl, he⟩ := (connect_words_mem_conn hvalid').mp hj
    refine ⟨hjl, ?_, ?_, ?_⟩
    · rintro rfl
      rcases he with h | h <;> exact absurd (GenW_lt h) (by omega)
    · exact (hcounts i j).1 ⟨by omega, by omega, he⟩
    · exact (hcounts j i).1 ⟨by omega, by omega, Or.symm he⟩

/-- Witness for C10 on the dictionary {aaaa, aaab, aaba, aabb}, node 0. -/
theorem C10_connection_list_invariants_witness :
    ((connect_words [⟨27⟩, ⟨0⟩, ⟨1⟩, ⟨26⟩]).getD 0 default).connected.Nodup ∧
    (∀ j ∈ ((connect_words [⟨27⟩, ⟨0⟩, ⟨1⟩, ⟨26⟩]).getD 0 default).connected,
      j < (connect_words [⟨27⟩, ⟨0⟩, ⟨1⟩, ⟨26⟩]).length ∧ j ≠ 0 ∧
      ((connect_words [⟨27⟩, ⟨0⟩, ⟨1⟩, ⟨26⟩]).getD 0 default).connected.count j = 1 ∧
      ((connect_words [⟨27⟩, ⟨0⟩, ⟨1⟩, ⟨26⟩]).getD j default).connected.count 0 = 1) :=
  C10_connection_list_invariants [⟨27⟩, ⟨0⟩, ⟨1⟩, ⟨26⟩] (by decide) 0 (by decide)

/-! ## relax lemmas -/

lemma getD_set_eq' {α : Type} (l : List α) (i : Nat) (a d : α) (h : i < l.length) :
    (l.set i a).getD i d = a := by
  rw [List.getD_eq_getElem?_getD, List.getElem?_set_self h]
  rfl

lemma getD_set_ne' {α : Type} (l : List α) {i j : Nat} (a d : α) (h : i ≠ j) :
    (l.set i a).getD j d = l.getD j d := by
  rw [List.getD_eq_getElem?_getD, List.getElem?_set_ne h, ← List.getD_eq_getElem?_getD]

lemma getD_eq_getD {α : Type} {l : List α} {i : Nat} (h : i < l.length) (d1 d2 : α) :
    l.getD i d1 = l.getD i d2 := by
  rw [List.getD_eq_getElem _ _ h, List.getD_eq_getElem _ _ h]

lemma sum_set_add : ∀ (l : List Nat) (i : Nat) (a : Nat), i < l.length →
    (l.set i a).sum + l.getD i 0 = l.sum + a
  | x :: t, 0, a, _ => by
    simp [List.sum_cons]
    omega
  | x :: t, i + 1, a, h => by
    show (x :: t.set i a).sum + t.getD i 0 = (x :: t).sum + a
    simp only [List.sum_cons]
    have := sum_set_add t i a (by simpa using h)
    omega

lemma relax_cases (G : List WordNode) (e : Word) (node : Nat) (st : AState) (nb : Nat) :
    (st.g.getD nb MAXSCORE ≤
        st.g.getD node MAXSCORE + (nodeWord G node).distance (nodeWord G nb) ∧
      relax G e node st nb = st) ∨
    (st.g.getD node MAXSCORE + (nodeWord G node).distance (nodeWord G nb) <
        st.g.getD nb MAXSCORE ∧
      relax G e node st nb =
        { frontier := if nb ∈ st.frontier then st.frontier else st.frontier ++ [nb]
          g := st.g.set nb (st.g.getD node MAXSCORE +
            (nodeWord G node).distance (nodeWord G nb))
          f := st.f.set nb (st.g.getD node MAXSCORE +
            (nodeWord G node).distance (nodeWord G nb) +
            (nodeWord G nb).distance e)
          came := st.came.set nb (some node) }) := by
  by_cases h : st.g.getD node MAXSCORE + (nodeWord G node).distance (nodeWord G nb) <
      st.g.getD nb MAXSCORE
  · refine Or.inr ⟨h, ?_⟩
    simp only [relax]
    rw [if_pos h]
  · refine Or.inl ⟨by omega, ?_⟩
    simp only [relax]
    rw [if_neg h]

lemma relaxList_spec (G : List WordNode) (e : Word) (node : Nat) :
    ∀ (l : List Nat) (st : AState),
    (∀ q ∈ l, q ∈ (G.getD node default).connected) →
    (∀ q ∈ l, q < st.g.length ∧ q < st.came.length) →
    ∀ st', st' = l.foldl (relax G e node) st →
    (st'.g.length = st.g.length ∧ st'.came.length = st.came.length) ∧
    st'.g.getD node MAXSCORE = st.g.getD node MAXSCORE ∧
    (∀ q ∈ l, st'.g.getD q MAXSCORE ≤
      st.g.getD node MAXSCORE + (nodeWord G node).distance (nodeWord G q)) ∧
    (∀ x ∈ st.frontier, x ∈ st'.frontier) ∧
    (st.frontier.Nodup → st'.frontier.Nodup) ∧
    (∀ x, x ∉ st'.frontier →
      st'.g.getD x MAXSCORE = st.g.getD x MAXSCORE ∧
      st'.came.getD x none = st.came.getD x none) ∧
    (∀ x, (st'.g.getD x MAXSCORE = st.g.getD x MAXSCORE ∧
           st'.came.getD x none = st.came.getD x none) ∨
      (st'.came.getD x none = some node ∧ x ∈ (G.getD node default).connected ∧
       st'.g.getD x MAXSCORE =
         st.g.getD node MAXSCORE + (nodeWord G node).distance (nodeWord G x) ∧
       st'.g.getD x MAXSCORE < st.g.getD x MAXSCORE)) ∧
    (∀ x ∈ st'.frontier, x ∈ st.frontier ∨
      (st'.came.getD x none = some node ∧ x ∈ (G.getD node default).connected ∧
       st'.g.getD x MAXSCORE < st.g.getD x MAXSCORE)) ∧
    2 * st'.g.sum + st'.frontier.length ≤ 2 * st.g.sum + st.frontier.length
  | [], st, hl, hb, st', hst' => by
    subst hst'
    refine ⟨⟨rfl, rfl⟩, rfl, by simp, fun x hx => hx, fun h => h,
      fun x _ => ⟨rfl, rfl⟩, fun x => Or.inl ⟨rfl, rfl⟩, fun x hx => Or.inl hx,
      le_refl _⟩
  | q :: l, st, hl, hb, st', hst' => by
    rw [List.foldl_cons] at hst'
    have hqconn : q ∈ (G.getD node default).connected := hl q (by simp)
    have hqb := hb q (by simp)
    -- analyse the single step
    rcases relax_cases G e node st q with ⟨hge, heq⟩ | ⟨hlt, heq⟩
    · -- not fired: the step is the identity
      rw [heq] at hst'
      obtain ⟨hP1, hP3, hP4, hP5a, hP6, hP7, hP10, hP5b, hPhi⟩ :=
        relaxList_spec G e node l st (fun x hx => hl x (by simp [hx]))
          (fun x hx => hb x (by simp [hx])) st' hst'
      refine ⟨hP1, hP3, ?_, hP5a, hP6, hP7, hP10, hP5b, hPhi⟩
      intro x hx
      rcases List.mem_cons.mp hx with rfl | hx'
      · rcases hP10 x with ⟨hg, _⟩ | ⟨_, _, hg, _⟩
        · rw [hg]; exact hge
        · rw [hg]
      · exact hP4 x hx'
    · -- fired
      have hqnode : q ≠ node := by
        rintro rfl
        rw [distance_self] at hlt
        omega
      set st2 : AState :=
        { frontier := if q ∈ st.frontier then st.frontier else st.frontier ++ [q]
          g := st.g.set q (st.g.getD node MAXSCORE +
            (nodeWord G node).distance (nodeWord G q))
          f := st.f.set q (st.g.getD node MAXSCORE +
            (nodeWord G node).distance (nodeWord G q) +
            (nodeWord G q).distance e)
          came := st.came.set q (some node) } with hst2
      rw [heq] at hst'
      have hglen2 : st2.g.length = st.g.length := List.length_set _ _ _
      have hclen2 : st2.came.length = st.came.length := List.length_set _ _ _
      obtain ⟨hP1, hP3, hP4, hP5a, hP6, hP7, hP10, hP5b, hPhi⟩ :=
        relaxList_spec G e node l st2 (fun x hx => hl x (by simp [hx]))
          (fun x hx => by
            rw [hglen2, hclen2]
            exact hb x (by simp [hx])) st' hst'
      -- step-level getD facts
      have hg2q : st2.g.getD q MAXSCORE = st.g.getD node MAXSCORE +
          (nodeWord G node).distance (nodeWord G q) := getD_set_eq' _ _ _ _ hqb.1
      have hg2ne : ∀ x, x ≠ q → st2.g.getD x MAXSCORE = st.g.getD x MAXSCORE :=
        fun x hx => getD_set_ne' _ _ _ (Ne.symm hx)
      have hc2q : st2.came.getD q none = some node := getD_set_eq' _ _ _ _ hqb.2
      have hc2ne : ∀ x, x ≠ q → st2.came.getD x none = st.came.getD x none :=
        fun x hx => getD_set_ne' _ _ _ (Ne.symm hx)
      have hg2node : st2.g.getD node MAXSCORE = st.g.getD node MAXSCORE :=
        hg2ne node (Ne.symm hqnode)
      have hf2mem : ∀ x ∈ st.frontier, x ∈ st2.frontier := by
        intro x hx
        show x ∈ (if q ∈ st.frontier then st.frontier else st.frontier ++ [q])
        split_ifs
        · exact hx
        · exact List.mem_append_left _ hx
      have hf2sub : ∀ x, x ∈ st2.frontier → x ∈ st.frontier ∨ x = q := by
        intro x hx
        by_cases hq : q ∈ st.frontier
        · left
          simpa [hq] using hx
        · have : x ∈ st.frontier ++ [q] := by simpa [hq] using hx
          rcases List.mem_append.mp this with h | h
          · exact Or.inl h
          · exact Or.inr (by simpa using h)
      refine ⟨?_, ?_, ?_, ?_, ?_, ?_, ?_, ?_, ?_⟩
      · rw [hP1.1, hP1.2, hglen2, hclen2]
        exact ⟨rfl, rfl⟩
      · rw [hP3, hg2node]
      · intro x hx
        rcases List.mem_cons.mp hx with rfl | hx'
        · rcases hP10 x with ⟨hg, _⟩ | ⟨_, _, hg, _⟩
          · rw [hg, hg2q]
          · rw [hg, hg2node]
        · have := hP4 x hx'
          rw [hg2node] at this
          exact this
      · intro x hx
        exact hP5a x (hf2mem x hx)
      · intro hnd
        apply hP6
        by_cases hq : q ∈ st.frontier
        · simpa [hq] using hnd
        · show (if q ∈ st.frontier then st.frontier else st.frontier ++ [q]).Nodup
          rw [if_neg hq]
          simp [List.nodup_append, hnd, hq]
      · intro x hx
        have h2 := hP7 x hx
        have hxq : x ≠ q := by
          rintro rfl
          apply hx
          apply hP5a
          show x ∈ (if x ∈ st.frontier then st.frontier else st.frontier ++ [x])
          split_ifs with h
          · exact h
          · exact List.mem_append_right _ (by simp)
        rw [h2.1, h2.2, hg2ne x hxq, hc2ne x hxq]
        exact ⟨rfl, rfl⟩
      · intro x
        by_cases hxq : x = q
        · subst hxq
          rcases hP10 x with ⟨hg, hc⟩ | ⟨hc, hconn, hg, hlt'⟩
          · right
            rw [hg, hc, hg2q, hc2q]
            exact ⟨rfl, hqconn, rfl, hlt⟩
          · right
            rw [hg2node] at hg
            rw [hg2q] at hlt'
            exact ⟨hc, hconn, hg, by omega⟩
        · rcases hP10 x with ⟨hg, hc⟩ | ⟨hc, hconn, hg, hlt'⟩
          · left
            rw [hg, hc, hg2ne x hxq, hc2ne x hxq]
            exact ⟨rfl, rfl⟩
          · right
            rw [hg2node] at hg
            rw [hg2ne x hxq] at hlt'
            exact ⟨hc, hconn, hg, hlt'⟩
      · intro x hx
        rcases hP5b x hx with hx2 | ⟨hc, hconn, hlt'⟩
        · rcases hf2sub x hx2 with hx1 | rfl
          · exact Or.inl hx1
          · right
            rcases hP10 x with ⟨hg, hc⟩ | ⟨hc, hconn', hg, hlt'⟩
            · rw [hg, hc]
              exact ⟨hc2q, hqconn, by rw [hg2q]; omega⟩
            · rw [hg2node] at hg
              exact ⟨hc, hconn', by rw [hg]; omega⟩
        · right
          rcases eq_or_ne x q with rfl | hxq
          · rw [hg2q] at hlt'
            exact ⟨hc, hconn, by omega⟩
          · rw [hg2ne x hxq] at hlt'
            exact ⟨hc, hconn, hlt'⟩
      · have hsum2 : st2.g.sum + st.g.getD q MAXSCORE =
            st.g.sum + (st.g.getD node MAXSCORE +
              (nodeWord G node).distance (nodeWord G q)) := by
          show (st.g.set q (st.g.getD node MAXSCORE +
            (nodeWord G node).distance (nodeWord G q))).sum + _ = _
          rw [← getD_eq_getD hqb.1 0 MAXSCORE]
          exact sum_set_add st.g q _ hqb.1
        have hflen : st2.frontier.length ≤ st.frontier.length + 1 := by
          show (if q ∈ st.frontier then st.frontier else st.frontier ++ [q]).length ≤ _
          split_ifs
          · omega
          · simp
        calc 2 * st'.g.sum + st'.frontier.length
            ≤ 2 * st2.g.sum + st2.frontier.length := hPhi
          _ ≤ 2 * st.g.sum + st.frontier.length := by omega

lemma expand_inv {G : List WordNode} (wf : WFGraph G) (e : Word) {si : Nat} {st : AState}
    (inv : Inv G si st) {node : Nat} (hnode : node ∈ st.frontier) :
    Inv G si ((G.getD node default).connected.foldl (relax G e node)
      { st with frontier := st.frontier.erase node }) := by
  have hnlen : node < G.length := inv.frontBound node hnode
  obtain ⟨⟨hglen, hclen⟩, hP3, hP4, hP5a, hP6, hP7, hP10, hP5b, hPhi⟩ :=
    relaxList_spec G e node (G.getD node default).connected
      { st with frontier := st.frontier.erase node }
      (fun q hq => hq)
      (fun q hq => by
        have hqb := wf.connBound node q hq
        exact ⟨by rw [inv.glen]; exact hqb, by rw [inv.clen]; exact hqb⟩)
      _ rfl
  generalize hstf : (G.getD node default).connected.foldl (relax G e node)
    { st with frontier := st.frontier.erase node } = stf
      at hglen hclen hP3 hP4 hP5a hP6 hP7 hP10 hP5b ⊢
  dsimp only at hglen hclen hP3 hP4 hP5a hP6 hP7 hP10 hP5b
  have hmem1 : ∀ x, x ∈ st.frontier.erase node ↔ (x ≠ node ∧ x ∈ st.frontier) :=
    fun x => inv.frontNodup.mem_erase_iff
  refine ⟨?_, ?_, ?_, ?_, ?_, ?_, ?_, ?_, ?_, ?_, ?_⟩
  · rw [hglen]
    exact inv.glen
  · rw [hclen]
    exact inv.clen
  · intro x hx
    rcases hP5b x hx with hx1 | ⟨_, hconn, _⟩
    · exact inv.frontBound x ((hmem1 x).mp hx1).2
    · exact wf.connBound node x hconn
  · exact hP6 (inv.frontNodup.erase node)
  · rcases hP10 si with ⟨hg, _⟩ | ⟨_, _, _, hg⟩
    · rw [hg]
      exact inv.gstart
    · have := inv.gstart
      omega
  · rcases hP10 si with ⟨_, hc⟩ | ⟨_, _, _, hg⟩
    · rw [hc]
      exact inv.camestart
    · have := inv.gstart
      omega
  · intro x
    rcases hP10 x with ⟨hg, _⟩ | ⟨_, _, _, hg⟩
    · rw [hg]
      exact inv.gBound x
    · have := inv.gBound x
      omega
  · intro x hx
    rcases hP5b x hx with hx1 | ⟨_, _, hg⟩
    · have hxf := ((hmem1 x).mp hx1).2
      have := inv.frontG x hxf
      rcases hP10 x with ⟨hg, _⟩ | ⟨_, _, _, hg⟩
      · rw [hg]
        exact this
      · omega
    · have := inv.gBound x
      omega
  · intro p hp hpf q hq
    by_cases hpn : p = node
    · subst hpn
      have h4 := hP4 q hq
      rw [hP3]
      exact h4
    · have hp1 : p ∉ st.frontier.erase node := fun h => hpf (hP5a p h)
      have hpst : p ∉ st.frontier := fun h => hp1 ((hmem1 p).mpr ⟨hpn, h⟩)
      have hrel := inv.relaxed p hp hpst q hq
      have h7 := hP7 p hpf
      have hq10 : stf.g.getD q MAXSCORE ≤ st.g.getD q MAXSCORE := by
        rcases hP10 q with ⟨hg, _⟩ | ⟨_, _, _, hg⟩ <;> omega
      rw [h7.1]
      omega
  · intro q m hqm
    rcases hP10 q with ⟨hg, hc⟩ | ⟨hc, hconn, hgq, hlt⟩
    · rw [hc] at hqm
      obtain ⟨hm, hconn, hle, hlt⟩ := inv.cameSpec q m hqm
      have hm10 : stf.g.getD m MAXSCORE ≤ st.g.getD m MAXSCORE := by
        rcases hP10 m with ⟨hg', _⟩ | ⟨_, _, _, hg'⟩ <;> omega
      refine ⟨hm, hconn, by omega, by omega⟩
    · have hmn : m = node := by
        rw [hqm] at hc
        exact Option.some.inj hc
      rw [hmn]
      have hd := wf.connDist node q hconn
      refine ⟨hnlen, hconn, ?_, ?_⟩
      · rw [hP3, hgq]
      · rw [hP3, hgq, hd]
        omega
  · intro q hql hqn
    rcases hP10 q with ⟨hg, hc⟩ | ⟨hc, _, _, _⟩
    · rw [hc] at hqn
      rcases inv.cameNone q hql hqn with h | h
      · exact Or.inl h
      · right
        rw [hg, h]
    · rw [hqn] at hc
      cases hc

lemma expand_phi {G : List WordNode} (wf : WFGraph G) (e : Word) {si : Nat} {st : AState}
    (inv : Inv G si st) {node : Nat} (hnode : node ∈ st.frontier) :
    2 * ((G.getD node default).connected.foldl (relax G e node)
        { st with frontier := st.frontier.erase node }).g.sum +
      ((G.getD node default).connected.foldl (relax G e node)
        { st with frontier := st.frontier.erase node }).frontier.length <
      2 * st.g.sum + st.frontier.length := by
  obtain ⟨_, _, _, _, _, _, _, _, hPhi⟩ :=
    relaxList_spec G e node (G.getD node default).connected
      { st with frontier := st.frontier.erase node }
      (fun q hq => hq)
      (fun q hq => by
        have hqb := wf.connBound node q hq
        exact ⟨by rw [inv.glen]; exact hqb, by rw [inv.clen]; exact hqb⟩)
      _ rfl
  dsimp only at hPhi
  have herase : (st.frontier.erase node).length = st.frontier.length - 1 :=
    List.length_erase_of_mem hnode
  have hpos : 0 < st.frontier.length := List.length_pos_of_mem hnode
  omega

/-! ## Initial state and reconstruction -/

lemma getD_replicate {α : Type} (n x : Nat) (a d : α) :
    (List.replicate n a).getD x d = if x < n then a else d := by
  rw [List.getD_eq_getElem?_getD, List.getElem?_replicate]
  split_ifs <;> rfl

lemma init_inv {G : List WordNode} {si : Nat} (hsi : si < G.length) :
    Inv G si
      { frontier := [si]
        g := (List.replicate G.length MAXSCORE).set si 0
        f := (List.replicate G.length MAXSCORE).set si 0
        came := List.replicate G.length none } := by
  have hgsi : ((List.replicate G.length MAXSCORE).set si 0).getD si MAXSCORE = 0 :=
    getD_set_eq' _ _ _ _ (by rw [List.length_replicate]; exact hsi)
  have hgne : ∀ x, x ≠ si →
      ((List.replicate G.length MAXSCORE).set si 0).getD x MAXSCORE = MAXSCORE := by
    intro x hx
    rw [getD_set_ne' _ _ _ (Ne.symm hx), getD_replicate]
    split_ifs <;> rfl
  have hcame : ∀ x, (List.replicate G.length (none : Option Nat)).getD x none = none := by
    intro x
    rw [getD_replicate]
    split_ifs <;> rfl
  have hgb : ∀ x, ((List.replicate G.length MAXSCORE).set si 0).getD x MAXSCORE ≤
      MAXSCORE := by
    intro x
    by_cases hx : x = si
    · subst hx
      rw [hgsi]
      omega
    · rw [hgne x hx]
  refine ⟨?_, ?_, ?_, ?_, hgsi, hcame si, hgb, ?_, ?_, ?_, ?_⟩
  · show ((List.replicate G.length MAXSCORE).set si 0).length = G.length
    rw [List.length_set, List.length_replicate]
  · show (List.replicate G.length (none : Option Nat)).length = G.length
    rw [List.length_replicate]
  · intro x hx
    have : x = si := by simpa using hx
    subst this
    exact hsi
  · exact List.nodup_singleton si
  · intro x hx
    have : x = si := by simpa using hx
    subst this
    rw [hgsi]
    decide
  · intro p hp hpf q hq
    have hpsi : p ≠ si := by
      intro h
      exact hpf (by simp [h])
    show ((List.replicate G.length MAXSCORE).set si 0).getD q MAXSCORE ≤
      ((List.replicate G.length MAXSCORE).set si 0).getD p MAXSCORE + _
    rw [hgne p hpsi]
    have := hgb q
    omega
  · intro q m hqm
    rw [hcame q] at hqm
    cases hqm
  · intro q hq hqn
    by_cases hqsi : q = si
    · exact Or.inl hqsi
    · exact Or.inr (hgne q hqsi)

lemma reach_lt {G : List WordNode} {si z c : Nat} (h : Reach G si z c) : z < G.length := by
  induction h with
  | refl h => exact h
  | step _ _ hq _ => exact hq

lemma reach_bound {G : List WordNode} {si : Nat} {st : AState} (inv : Inv G si st)
    {z c : Nat} (h : Reach G si z c) :
    st.g.getD z MAXSCORE ≤ c ∨
    ∃ y cy, y ∈ st.frontier ∧ st.g.getD y MAXSCORE ≤ cy ∧
      cy + (nodeWord G y).distance (nodeWord G z) ≤ c := by
  induction h with
  | refl hsi =>
    left
    rw [inv.gstart]
  | @step m q c' hreach hconn hql ih =>
    rcases ih with hgm | ⟨y, cy, hy, hgy, hcy⟩
    · by_cases hm : m ∈ st.frontier
      · exact Or.inr ⟨m, c', hm, hgm, le_refl _⟩
      · left
        have hrel := inv.relaxed m (reach_lt hreach) hm q hconn
        omega
    · right
      refine ⟨y, cy, hy, hgy, ?_⟩
      have htri := distance_triangle (nodeWord G y) (nodeWord G m) (nodeWord G q)
      omega

lemma pathCost_single (a : Word) : pathCost [a] = 0 := rfl

lemma pathCost_cons2 (a b : Word) (t : List Word) :
    pathCost (a :: b :: t) = a.distance b + pathCost (b :: t) := rfl

lemma pathCost_append_single : ∀ (p : List Word) (a b : Word), p.getLast? = some a →
    pathCost (p ++ [b]) = pathCost p + a.distance b
  | [], a, b, h => by cases h
  | [x], a, b, h => by
    have hxa : x = a := by simpa using h
    subst hxa
    show pathCost [x, b] = pathCost [x] + x.distance b
    rw [pathCost_cons2, pathCost_single, pathCost_single]
    omega
  | x :: y :: t, a, b, h => by
    have h' : (y :: t).getLast? = some a := by
      rw [← List.getLast?_cons_cons (a := x)]
      exact h
    show pathCost (x :: y :: (t ++ [b])) = pathCost (x :: y :: t) + a.distance b
    rw [pathCost_cons2, pathCost_cons2]
    have := pathCost_append_single (y :: t) a b h'
    rw [show (y :: t) ++ [b] = y :: (t ++ [b]) from rfl] at this
    omega

lemma reconstruct_succ (came : List (Option Nat)) (words : List WordNode)
    (fuel node : Nat) :
    reconstruct came words (fuel + 1) node =
      (match came.getD node none with
       | none => some [nodeWord words node]
       | some m => (reconstruct came words fuel m).map (· ++ [nodeWord words node])) :=
  rfl

lemma reconstruct_spec {G : List WordNode} {si : Nat} {st : AState} (inv : Inv G si st) :
    ∀ (B : Nat) (node : Nat) (fuel : Nat), node < G.length →
    st.g.getD node MAXSCORE ≤ B → st.g.getD node MAXSCORE < MAXSCORE → B < fuel →
    ∃ p, reconstruct st.came G fuel node = some p ∧
      p.head? = some (nodeWord G si) ∧ p.getLast? = some (nodeWord G node) ∧
      (∀ w ∈ p, ∃ i, i < G.length ∧ nodeWord G i = w) ∧
      p.Chain' (WAdj G) ∧
      pathCost p ≤ st.g.getD node MAXSCORE := by
  intro B
  induction B with
  | zero =>
    intro node fuel hn hgB hgM hf
    obtain ⟨f, rfl⟩ : ∃ f, fuel = f + 1 := ⟨fuel - 1, by omega⟩
    cases hc : st.came.getD node none with
    | some m =>
      obtain ⟨hm, hconn, hle, hlt⟩ := inv.cameSpec node m hc
      omega
    | none =>
      have hni : node = si := by
        rcases inv.cameNone node hn hc with h | h
        · exact h
        · omega
      subst hni
      refine ⟨[nodeWord G node], ?_, rfl, rfl, ?_, List.chain'_singleton _, ?_⟩
      · rw [reconstruct_succ, hc]
      · intro w hw
        have : w = nodeWord G node := by simpa using hw
        exact ⟨node, hn, this.symm⟩
      · rw [pathCost_single]
        omega
  | succ B ih =>
    intro node fuel hn hgB hgM hf
    obtain ⟨f, rfl⟩ : ∃ f, fuel = f + 1 := ⟨fuel - 1, by omega⟩
    cases hc : st.came.getD node none with
    | none =>
      have hni : node = si := by
        rcases inv.cameNone node hn hc with h | h
        · exact h
        · omega
      subst hni
      refine ⟨[nodeWord G node], ?_, rfl, rfl, ?_, List.chain'_singleton _, ?_⟩
      · rw [reconstruct_succ, hc]
      · intro w hw
        have : w = nodeWord G node := by simpa using hw
        exact ⟨node, hn, this.symm⟩
      · rw [pathCost_single]
        omega
    | some m =>
      obtain ⟨hm, hconn, hle, hlt⟩ := inv.cameSpec node m hc
      obtain ⟨p', hrec, hhead, hlast, hmem, hchain, hcost⟩ :=
        ih m f hm (by omega) (by omega) (by omega)
      have hp'ne : p' ≠ [] := by
        intro h
        rw [h] at hhead
        cases hhead
      refine ⟨p' ++ [nodeWord G node], ?_, ?_, ?_, ?_, ?_, ?_⟩
      · rw [reconstruct_succ, hc]
        show (reconstruct st.came G f m).map (· ++ [nodeWord G node]) =
          some (p' ++ [nodeWord G node])
        rw [hrec]
        rfl
      · rw [List.head?_append_of_ne_nil _ hp'ne]
        exact hhead
      · rw [List.getLast?_concat]
      · intro w hw
        rcases List.mem_append.mp hw with hw' | hw'
        · exact hmem w hw'
        · have : w = nodeWord G node := by simpa using hw'
          exact ⟨node, hn, this.symm⟩
      · rw [List.chain'_append]
        refine ⟨hchain, List.chain'_singleton _, ?_⟩
        intro x hx y hy
        rw [hlast] at hx
        have hxm : x = nodeWord G m := by
          have := hx
          simp only [Option.mem_def, Option.some.injEq] at this
          exact this.symm
        have hyn : y = nodeWord G node := by
          have := hy
          simp only [List.head?_cons, Option.mem_def, Option.some.injEq] at this
          exact this.symm
        subst hxm
        subst hyn
        exact ⟨m, node, hm, hn, rfl, rfl, hconn⟩
      · rw [pathCost_append_single p' _ _ hlast]
        omega

/-! ## The search loop -/

lemma weaveLoop_succ (sel : List Nat → (Nat → Nat) → Option Nat) (e : Word)
    (words : List WordNode) (fuel : Nat) (st : AState) :
    weaveLoop sel e words (fuel + 1) st =
      (match sel st.frontier (selKey words e st) with
       | none => .ok none
       | some node =>
         if nodeWord words node = e then
           match reconstruct st.came words (MAXSCORE + 1) node with
           | some path => .ok (some path)
           | none => .error .diverge
         else
           weaveLoop sel e words fuel
             ((words.getD node default).connected.foldl (relax words e node)
               { st with frontier := st.frontier.erase node })) := rfl

lemma weaveLoop_sound {G : List WordNode} (wf : WFGraph G)
    {sel : List Nat → (Nat → Nat) → Option Nat} (hsel : SelSpec sel)
    (e : Word) {si : Nat} (_hsi : si < G.length) :
    ∀ (fuel : Nat) (st : AState), Inv G si st →
    2 * st.g.sum + st.frontier.length < fuel →
    (∃ p, weaveLoop sel e G fuel st = .ok (some p) ∧
       p.head? = some (nodeWord G si) ∧ p.getLast? = some e ∧
       p.Chain' (WAdj G) ∧ (∀ w ∈ p, ∃ i, i < G.length ∧ nodeWord G i = w) ∧
       (∀ z c, Reach G si z c → nodeWord G z = e → pathCost p ≤ c)) ∨
    (weaveLoop sel e G fuel st = .ok none) := by
  intro fuel
  induction fuel with
  | zero =>
    intro st inv hphi
    omega
  | succ fuel ih =>
    intro st inv hphi
    cases hpick : sel st.frontier (selKey G e st) with
    | none =>
      right
      rw [weaveLoop_succ, hpick]
    | some node =>
      rw [weaveLoop_succ, hpick]
      dsimp only
      have hmem := hsel.mem _ _ _ hpick
      have hmin := hsel.min _ _ _ hpick
      have hnlen : node < G.length := inv.frontBound node hmem
      by_cases hword : nodeWord G node = e
      · rw [if_pos hword]
        have hgM := inv.frontG node hmem
        obtain ⟨p, hrec, hhead, hlast, hmemp, hchain, hcost⟩ :=
          reconstruct_spec inv MAXSCORE node (MAXSCORE + 1) hnlen (inv.gBound node)
            hgM (by omega)
        left
        refine ⟨p, ?_, hhead, by rw [hlast, hword], hchain, hmemp, ?_⟩
        · show (match reconstruct st.came G (MAXSCORE + 1) node with
            | some path => Except.ok (some path)
            | none => Except.error WeaveError.diverge) = Except.ok (some p)
          rw [hrec]
        · intro z c hreach hwz
          have hzlen := reach_lt hreach
          have hzn : z = node := wf.wordsInj z node hzlen hnlen (by rw [hwz, hword])
          subst hzn
          have hb := reach_bound inv hreach
          have hgzc : st.g.getD z MAXSCORE ≤ c := by
            rcases hb with h | ⟨y, cy, hy, hgy, hcy⟩
            · exact h
            · have hk := hmin y hy
              have hdz : (nodeWord G z).distance e = 0 := by
                rw [hwz, distance_self]
              unfold selKey at hk
              rw [hdz] at hk
              rw [hwz] at hcy
              omega
          omega
      · rw [if_neg hword]
        have hinv' := expand_inv wf e inv hmem
        have hphi' := expand_phi wf e inv hmem
        exact ih _ hinv' (by omega)

/-! ## weave-level assembly -/

lemma findIdx_word {G : List WordNode} {s : Word} {si : Nat}
    (h : G.findIdx? (fun n => decide (n.word = s)) = some si) :
    si < G.length ∧ nodeWord G si = s := by
  rw [List.findIdx?_eq_some_iff_getElem] at h
  obtain ⟨hlt, hp, _⟩ := h
  refine ⟨hlt, ?_⟩
  unfold nodeWord
  rw [List.getD_eq_getElem _ _ hlt]
  simpa using hp

lemma findIdx_some_of_mem {G : List WordNode} {s : Word}
    (h : s ∈ G.map (fun n => n.word)) :
    ∃ si, G.findIdx? (fun n => decide (n.word = s)) = some si := by
  obtain ⟨nd, hnd, heq⟩ := List.mem_map.mp h
  cases hidx : G.findIdx? (fun n => decide (n.word = s)) with
  | some si => exact ⟨si, rfl⟩
  | none =>
    rw [List.findIdx?_eq_none_iff] at hidx
    have := hidx nd hnd
    simp [heq] at this

lemma weave_eq_some {sel : List Nat → (Nat → Nat) → Option Nat} {s e : Word}
    {G : List WordNode} {si : Nat}
    (h : G.findIdx? (fun n => decide (n.word = s)) = some si) :
    weave sel s e G = weaveLoop sel e G (weaveFuel G.length)
      { frontier := [si]
        g := (List.replicate G.length MAXSCORE).set si 0
        f := (List.replicate G.length MAXSCORE).set si 0
        came := List.replicate G.length none } := by
  unfold weave
  rw [h]

lemma weave_eq_panic {sel : List Nat → (Nat → Nat) → Option Nat} {s e : Word}
    {G : List WordNode}
    (h : G.findIdx? (fun n => decide (n.word = s)) = none) :
    weave sel s e G = .error .unwrapPanic := by
  unfold weave
  rw [h]

lemma init_phi {G : List WordNode} {si : Nat} (hsi : si < G.length) :
    2 * ((List.replicate G.length MAXSCORE).set si 0).sum + 1 < weaveFuel G.length := by
  have hsum := sum_set_add (List.replicate G.length MAXSCORE) si 0
    (by rw [List.length_replicate]; exact hsi)
  have hrep : (List.replicate G.length MAXSCORE).sum = G.length * MAXSCORE := by
    rw [List.sum_replicate]
    exact nsmul_eq_mul _ _
  have hgd : (List.replicate G.length MAXSCORE).getD si 0 = MAXSCORE := by
    rw [getD_replicate, if_pos hsi]
  rw [hrep, hgd] at hsum
  simp only [MAXSCORE, weaveFuel] at *
  omega

lemma chain_reach {G : List WordNode} {si : Nat}
    (hinj : ∀ i j, i < G.length → j < G.length → nodeWord G i = nodeWord G j → i = j) :
    ∀ (p : List Word) (z : Nat) (c : Nat), z < G.length →
    (nodeWord G z :: p).Chain' (WAdj G) → Reach G si z c →
    ∃ z', z' < G.length ∧ Reach G si z' (c + pathCost (nodeWord G z :: p)) ∧
      (nodeWord G z :: p).getLast? = some (nodeWord G z')
  | [], z, c, hz, _, hreach =>
    ⟨z, hz, by rw [pathCost_single]; simpa using hreach, rfl⟩
  | b :: t, z, c, hz, hchain, hreach => by
    obtain ⟨hadj, hchain'⟩ := List.chain'_cons.mp hchain
    obtain ⟨i, j, hi, hj, hwi, hwj, hconn⟩ := hadj
    have hzi : z = i := hinj z i hz hi (by rw [hwi])
    have hconn' : j ∈ (G.getD z default).connected := by
      rw [hzi]
      exact hconn
    have hreach' : Reach G si j (c + (nodeWord G z).distance (nodeWord G j)) :=
      Reach.step hreach hconn' hj
    have hchainj : (nodeWord G j :: t).Chain' (WAdj G) := by
      rw [hwj]
      exact hchain'
    obtain ⟨z', hz', hreachz', hlast⟩ := chain_reach hinj t j
      (c + (nodeWord G z).distance (nodeWord G j)) hj hchainj hreach'
    refine ⟨z', hz', ?_, ?_⟩
    · have hcosteq : c + (nodeWord G z).distance (nodeWord G j) +
          pathCost (nodeWord G j :: t) = c + pathCost (nodeWord G z :: b :: t) := by
        rw [pathCost_cons2, hwj]
        omega
      rw [← hcosteq]
      exact hreachz'
    · rw [List.getLast?_cons_cons]
      rw [← hwj]
      exact hlast

lemma isPath_reach {G : List WordNode}
    (hinj : ∀ i j, i < G.length → j < G.length → nodeWord G i = nodeWord G j → i = j)
    {s e : Word} {q : List Word} (hq : IsPath G s e q)
    {si : Nat} (hsi : si < G.length) (hws : nodeWord G si = s) :
    ∃ z, z < G.length ∧ nodeWord G z = e ∧ Reach G si z (pathCost q) := by
  obtain ⟨hhead, hlast, hchain, _⟩ := hq
  cases q with
  | nil => cases hhead
  | cons a rest =>
    have ha : a = s := by simpa using hhead
    have hchain' : (nodeWord G si :: rest).Chain' (WAdj G) := by
      rw [hws, ← ha]
      exact hchain
    obtain ⟨z, hz, hreach, hlastz⟩ :=
      chain_reach hinj rest si 0 hsi hchain' (Reach.refl hsi)
    rw [hws, ← ha] at hlastz
    rw [hlastz] at hlast
    refine ⟨z, hz, Option.some.inj hlast, ?_⟩
    have hcost : pathCost (a :: rest) = 0 + pathCost (nodeWord G si :: rest) := by
      rw [hws, ← ha]
      omega
    rw [hcost]
    exact hreach

lemma minFold_inv (k : Nat → Nat) (f : Option Nat → Nat → Option Nat)
    (hnone : ∀ x, f none x = some x)
    (hsome : ∀ b x, f (some b) x = some x ∨ f (some b) x = some b)
    (hle : ∀ b x c, f (some b) x = some c → k c ≤ k b ∧ k c ≤ k x) :
    ∀ (l : List Nat) (acc : Option Nat) (x : Nat), l.foldl f acc = some x →
      (x ∈ l ∨ acc = some x) ∧ (∀ y ∈ l, k x ≤ k y) ∧
      (∀ b, acc = some b → k x ≤ k b) := by
  intro l
  induction l with
  | nil =>
    intro acc x hfold
    rw [List.foldl_nil] at hfold
    refine ⟨Or.inr hfold, by simp, ?_⟩
    intro b hb
    rw [hfold] at hb
    rw [Option.some.inj hb]
  | cons a t ih =>
    intro acc x hfold
    rw [List.foldl_cons] at hfold
    obtain ⟨hmem, hmin, hacc⟩ := ih (f acc a) x hfold
    cases acc with
    | none =>
      rw [hnone] at hmem hacc
      refine ⟨?_, ?_, ?_⟩
      · rcases hmem with h | h
        · exact Or.inl (List.mem_cons_of_mem _ h)
        · exact Or.inl (List.mem_cons.mpr (Or.inl (Option.some.inj h).symm))
      · intro y hy
        rcases List.mem_cons.mp hy with h | h
        · rw [h]
          exact hacc a rfl
        · exact hmin y h
      · intro b hb
        cases hb
    | some b0 =>
      rcases hsome b0 a with hf | hf
      · obtain ⟨h1, _⟩ := hle b0 a a hf
        rw [hf] at hmem hacc
        refine ⟨?_, ?_, ?_⟩
        · rcases hmem with h | h
          · exact Or.inl (List.mem_cons_of_mem _ h)
          · exact Or.inl (List.mem_cons.mpr (Or.inl (Option.some.inj h).symm))
        · intro y hy
          rcases List.mem_cons.mp hy with h | h
          · rw [h]
            exact hacc a rfl
          · exact hmin y h
        · intro b hb
          rw [← Option.some.inj hb]
          exact le_trans (hacc a rfl) h1
      · obtain ⟨_, h2⟩ := hle b0 a b0 hf
        rw [hf] at hmem hacc
        refine ⟨?_, ?_, ?_⟩
        · rcases hmem with h | h
          · exact Or.inl (List.mem_cons_of_mem _ h)
          · exact Or.inr h
        · intro y hy
          rcases List.mem_cons.mp hy with h | h
          · rw [h]
            exact le_trans (hacc b0 rfl) h2
          · exact hmin y h
        · intro b hb
          rw [← Option.some.inj hb]
          exact hacc b0 rfl

lemma minFold_total (f : Option Nat → Nat → Option Nat)
    (hsome : ∀ b x, f (some b) x = some x ∨ f (some b) x = some b) :
    ∀ (l : List Nat) (b : Nat), (l.foldl f (some b)).isSome := by
  intro l
  induction l with
  | nil =>
    intro b
    rfl
  | cons a t ih =>
    intro b
    rw [List.foldl_cons]
    rcases hsome b a with hf | hf <;> rw [hf] <;> exact ih _

lemma selSpec_pickFirstMin : SelSpec pickFirstMin := by
  have hnone : ∀ (k : Nat → Nat) x,
      (fun (acc : Option Nat) (x : Nat) =>
        match acc with
        | none => some x
        | some b => if k x < k b then some x else some b) none x = some x :=
    fun _ _ => rfl
  have hsome : ∀ (k : Nat → Nat) b x,
      (fun (acc : Option Nat) (x : Nat) =>
        match acc with
        | none => some x
        | some b => if k x < k b then some x else some b) (some b) x = some x ∨
      (fun (acc : Option Nat) (x : Nat) =>
        match acc with
        | none => some x
        | some b => if k x < k b then some x else some b) (some b) x = some b := by
    intro k b x
    by_cases h : k x < k b
    · left
      show (if k x < k b then some x else some b) = some x
      rw [if_pos h]
    · right
      show (if k x < k b then some x else some b) = some b
      rw [if_neg h]
  have hle : ∀ (k : Nat → Nat) b x c,
      (fun (acc : Option Nat) (x : Nat) =>
        match acc with
        | none => some x
        | some b => if k x < k b then some x else some b) (some b) x = some c →
      k c ≤ k b ∧ k c ≤ k x := by
    intro k b x c h
    have h' : (if k x < k b then some x else some b) = some c := h
    by_cases hlt : k x < k b
    · rw [if_pos hlt] at h'
      rw [← Option.some.inj h']
      omega
    · rw [if_neg hlt] at h'
      rw [← Option.some.inj h']
      omega
  refine ⟨?_, ?_, ?_⟩
  · intro l k x h
    unfold pickFirstMin at h
    rcases (minFold_inv k _ (hnone k) (hsome k) (hle k) l none x h).1 with h' | h'
    · exact h'
    · cases h'
  · intro l k x h
    unfold pickFirstMin at h
    exact (minFold_inv k _ (hnone k) (hsome k) (hle k) l none x h).2.1
  · intro l k hl
    cases l with
    | nil => exact absurd rfl hl
    | cons a t =>
      unfold pickFirstMin
      rw [List.foldl_cons]
      exact minFold_total _ (hsome k) t a

lemma selSpec_pickLastMin : SelSpec pickLastMin := by
  have hnone : ∀ (k : Nat → Nat) x,
      (fun (acc : Option Nat) (x : Nat) =>
        match acc with
        | none => some x
        | some b => if k x ≤ k b then some x else some b) none x = some x :=
    fun _ _ => rfl
  have hsome : ∀ (k : Nat → Nat) b x,
      (fun (acc : Option Nat) (x : Nat) =>
        match acc with
        | none => some x
        | some b => if k x ≤ k b then some x else some b) (some b) x = some x ∨
      (fun (acc : Option Nat) (x : Nat) =>
        match acc with
        | none => some x
        | some b => if k x ≤ k b then some x else some b) (some b) x = some b := by
    intro k b x
    by_cases h : k x ≤ k b
    · left
      show (if k x ≤ k b then some x else some b) = some x
      rw [if_pos h]
    · right
      show (if k x ≤ k b then some x else some b) = some b
      rw [if_neg h]
  have hle : ∀ (k : Nat → Nat) b x c,
      (fun (acc : Option Nat) (x : Nat) =>
        match acc with
        | none => some x
        | some b => if k x ≤ k b then some x else some b) (some b) x = some c →
      k c ≤ k b ∧ k c ≤ k x := by
    intro k b x c h
    have h' : (if k x ≤ k b then some x else some b) = some c := h
    by_cases hlt : k x ≤ k b
    · rw [if_pos hlt] at h'
      rw [← Option.some.inj h']
      omega
    · rw [if_neg hlt] at h'
      rw [← Option.some.inj h']
      omega
  refine ⟨?_, ?_, ?_⟩
  · intro l k x h
    unfold pickLastMin at h
    rcases (minFold_inv k _ (hnone k) (hsome k) (hle k) l none x h).1 with h' | h'
    · exact h'
    · cases h'
  · intro l k x h
    unfold pickLastMin at h
    exact (minFold_inv k _ (hnone k) (hsome k) (hle k) l none x h).2.1
  · intro l k hl
    cases l with
    | nil => exact absurd rfl hl
    | cons a t =>
      unfold pickLastMin
      rw [List.foldl_cons]
      exact minFold_total _ (hsome k) t a

lemma mem_of_getLast?_eq : ∀ {l : List Word} {a : Word}, l.getLast? = some a → a ∈ l
  | [], _, h => by cases h
  | [x], a, h => by
    have hx : x = a := by simpa using h
    simp [hx]
  | _ :: y :: t, _, h => by
    rw [List.getLast?_cons_cons] at h
    exact List.mem_cons_of_mem _ (mem_of_getLast?_eq h)

lemma nodeWord_mem_map {G : List WordNode} {i : Nat} (hi : i < G.length) :
    nodeWord G i ∈ G.map (fun n => n.word) := by
  unfold nodeWord
  rw [List.getD_eq_getElem _ _ hi]
  exact List.mem_map.mpr ⟨G[i], List.getElem_mem hi, rfl⟩

lemma findIdx_none_of_not_mem {G : List WordNode} {s : Word}
    (h : s ∉ G.map (fun n => n.word)) :
    G.findIdx? (fun n => decide (n.word = s)) = none := by
  cases hidx : G.findIdx? (fun n => decide (n.word = s)) with
  | none => rfl
  | some si =>
    obtain ⟨hsi, hword⟩ := findIdx_word hidx
    exact absurd (hword ▸ nodeWord_mem_map hsi) h

lemma no_path_of_edgeless {G : List WordNode}
    (hE : ∀ nd ∈ G, nd.connected = []) {s e : Word} (hne : s ≠ e) (q : List Word) :
    ¬ IsPath G s e q := by
  rintro ⟨hhead, hlast, hchain, _⟩
  cases q with
  | nil => cases hhead
  | cons a t =>
    cases t with
    | nil =>
      have ha : a = s := by simpa using hhead
      have ha' : a = e := by simpa using hlast
      exact hne (ha ▸ ha')
    | cons b t' =>
      obtain ⟨hadj, _⟩ := List.chain'_cons.mp hchain
      obtain ⟨i, j, hi, _, _, _, hconn⟩ := hadj
      have hnil : (G.getD i default).connected = [] := by
        apply hE
        rw [List.getD_eq_getElem _ _ hi]
        exact List.getElem_mem hi
      rw [hnil] at hconn
      cases hconn

lemma weave_sound {ws : List Word} (hvalid : ∀ w ∈ ws, w.val < 456976)
    {sel : List Nat → (Nat → Nat) → Option Nat} (hsel : SelSpec sel) {s e : Word}
    {si : Nat}
    (hidx : (connect_words ws).findIdx? (fun n => decide (n.word = s)) = some si) :
    (∃ p, weave sel s e (connect_words ws) = .ok (some p) ∧
       IsPath (connect_words ws) s e p ∧
       (∀ q, IsPath (connect_words ws) s e q → pathCost p ≤ pathCost q)) ∨
    weave sel s e (connect_words ws) = .ok none := by
  have wf := connect_words_wf ws hvalid
  obtain ⟨hsi, hword⟩ := findIdx_word hidx
  rw [weave_eq_some hidx]
  have hphi := init_phi (G := connect_words ws) hsi
  rcases weaveLoop_sound wf hsel e hsi (weaveFuel (connect_words ws).length)
      { frontier := [si]
        g := (List.replicate (connect_words ws).length MAXSCORE).set si 0
        f := (List.replicate (connect_words ws).length MAXSCORE).set si 0
        came := List.replicate (connect_words ws).length none }
      (init_inv hsi) (by simpa using hphi)
    with ⟨p, hp, hhead, hlast, hchain, hmemp, hmin⟩ | hnone
  · left
    refine ⟨p, hp, ⟨by rw [← hword]; exact hhead, hlast, hchain, hmemp⟩, ?_⟩
    intro q hq
    obtain ⟨z, hz, hwz, hreach⟩ := isPath_reach wf.wordsInj hq hsi hword
    exact hmin z (pathCost q) hreach hwz
  · right
    exact hnone

lemma weaveLoop_start_hit {G : List WordNode}
    {sel : List Nat → (Nat → Nat) → Option Nat} (hsel : SelSpec sel) (e : Word)
    {si : Nat} (hword : nodeWord G si = e) (fuel : Nat)
    (g0 f0 : List Nat) (c0 : List (Option Nat)) (hcame : c0.getD si none = none) :
    weaveLoop sel e G (fuel + 1) ⟨[si], g0, f0, c0⟩ = .ok (some [nodeWord G si]) := by
  rw [weaveLoop_succ]
  dsimp only
  cases hpick : sel [si] (selKey G e ⟨[si], g0, f0, c0⟩) with
  | none =>
    have htot := hsel.total [si] (selKey G e ⟨[si], g0, f0, c0⟩) (by simp)
    rw [hpick] at htot
    simp at htot
  | some x =>
    have hx : x ∈ [si] := hsel.mem _ _ _ hpick
    have hxsi : x = si := by simpa using hx
    subst hxsi
    dsimp only
    rw [if_pos hword]
    have hrec : reconstruct c0 G (MAXSCORE + 1) x = some [nodeWord G x] := by
      show (match c0.getD x none with
        | none => some [nodeWord G x]
        | some m => (reconstruct c0 G MAXSCORE m).map (· ++ [nodeWord G x])) =
        some [nodeWord G x]
      rw [hcame]
    rw [hrec]

/-- C1: on any graph produced by `connect_words` (from words whose values fit
the grid, so that construction does not panic), with any selection behaviour
`min_by_key` can exhibit, if `weave` returns a path then that path runs from
`start` to `end` in the graph and its total cost (sum of consecutive
`distance` values) is minimal over all such paths. -/
theorem C1_weave_optimal (ws : List Word)
    (sel : List Nat → (Nat → Nat) → Option Nat) (hsel : SelSpec sel)
    (hvalid : ∀ w ∈ ws, w.val < 26 ^ 4) (s e : Word) (p : List Word)
    (hres : weave sel s e (connect_words ws) = .ok (some p)) :
    IsPath (connect_words ws) s e p ∧
    ∀ q, IsPath (connect_words ws) s e q → pathCost p ≤ pathCost q := by
  have hpow : (26 : Nat) ^ 4 = 456976 := by norm_num
  have hvalid' : ∀ w ∈ ws, w.val < 456976 := by
    intro w hw
    have := hvalid w hw
    rw [hpow] at this
    exact this
  cases hidx : (connect_words ws).findIdx? (fun n => decide (n.word = s)) with
  | none =>
    rw [weave_eq_panic hidx] at hres
    simp at hres
  | some si =>
    rcases weave_sound hvalid' hsel (e := e) hidx with ⟨p', hp', hpath, hmin⟩ | hnone
    · rw [hres] at hp'
      have hpp : p = p' := Option.some.inj (Except.ok.inj hp')
      rw [hpp]
      exact ⟨hpath, hmin⟩
    · rw [hres] at hnone
      simp at hnone

/-- C1 witness: on the four-word graph aaaa/aaab/aaba/aabb with start aaaa
and end aabb, the path returned under insertion-order selection is a
minimal-cost path. -/
theorem C1_weave_optimal_witness :
    IsPath (connect_words [⟨27⟩, ⟨0⟩, ⟨1⟩, ⟨26⟩]) ⟨0⟩ ⟨27⟩ [⟨0⟩, ⟨1⟩, ⟨27⟩] ∧
    ∀ q, IsPath (connect_words [⟨27⟩, ⟨0⟩, ⟨1⟩, ⟨26⟩]) ⟨0⟩ ⟨27⟩ q →
      pathCost [⟨0⟩, ⟨1⟩, ⟨27⟩] ≤ pathCost q :=
  C1_weave_optimal [⟨27⟩, ⟨0⟩, ⟨1⟩, ⟨26⟩] pickFirstMin selSpec_pickFirstMin
    (by decide) ⟨0⟩ ⟨27⟩ [⟨0⟩, ⟨1⟩, ⟨27⟩] (by decide)

/-- C7: on any graph produced by `connect_words` with the start word present
as a node, if no path connects start to end then `weave` returns the explicit
no-solution result `.ok none` — not an error and not an empty path. -/
theorem C7_no_path_returns_none (ws : List Word)
    (sel : List Nat → (Nat → Nat) → Option Nat) (hsel : SelSpec sel)
    (hvalid : ∀ w ∈ ws, w.val < 26 ^ 4) (s e : Word)
    (hs : s ∈ (connect_words ws).map (fun n => n.word))
    (hnp : ∀ q, ¬ IsPath (connect_words ws) s e q) :
    weave sel s e (connect_words ws) = .ok none := by
  have hpow : (26 : Nat) ^ 4 = 456976 := by norm_num
  have hvalid' : ∀ w ∈ ws, w.val < 456976 := by
    intro w hw
    have := hvalid w hw
    rw [hpow] at this
    exact this
  obtain ⟨si, hidx⟩ := findIdx_some_of_mem hs
  rcases weave_sound hvalid' hsel (e := e) hidx with ⟨p, _, hpath, _⟩ | hnone
  · exact absurd hpath (hnp p)
  · exact hnone

/-- C7 witness: on the edgeless two-word graph aaaa/bbbb, searching from
aaaa to bbbb returns `.ok none`. -/
theorem C7_no_path_returns_none_witness :
    weave pickFirstMin ⟨0⟩ ⟨18279⟩ (connect_words [⟨0⟩, ⟨18279⟩]) = .ok none :=
  C7_no_path_returns_none [⟨0⟩, ⟨18279⟩] pickFirstMin selSpec_pickFirstMin
    (by decide) ⟨0⟩ ⟨18279⟩ (by decide)
    (fun q => no_path_of_edgeless (by decide) (by decide) q)

/-- C8: on any node list containing the word `s`, searching from `s` to `s`
returns the single-element path `[s]`, whose total cost is `0`: the first
node selected is the start, it equals the goal, and reconstruction stops
immediately since `came_from[start]` is still `u32::MAX`. -/
theorem C8_start_eq_end (G : List WordNode)
    (sel : List Nat → (Nat → Nat) → Option Nat) (hsel : SelSpec sel) (s : Word)
    (hs : s ∈ G.map (fun n => n.word)) :
    weave sel s s G = .ok (some [s]) ∧ pathCost [s] = 0 := by
  obtain ⟨si, hidx⟩ := findIdx_some_of_mem hs
  obtain ⟨_, hword⟩ := findIdx_word hidx
  refine ⟨?_, rfl⟩
  rw [weave_eq_some hidx]
  have hf : weaveFuel G.length = 2 * MAXSCORE * G.length + G.length + 1 + 1 := by
    simp only [weaveFuel, MAXSCORE]
  rw [hf]
  have hcame : (List.replicate G.length (none : Option Nat)).getD si none = none := by
    rw [getD_replicate]
    exact ite_self none
  rw [weaveLoop_start_hit hsel s hword (2 * MAXSCORE * G.length + G.length + 1)
    _ _ _ hcame]
  rw [hword]

/-- C8 witness: on the one-word graph aaaa, searching from aaaa to aaaa
returns the single-element path, with cost 0. -/
theorem C8_start_eq_end_witness :
    weave pickFirstMin ⟨0⟩ ⟨0⟩ (connect_words [⟨0⟩]) =
      .ok (some [⟨0⟩]) ∧ pathCost [⟨0⟩] = 0 :=
  C8_start_eq_end (connect_words [⟨0⟩]) pickFirstMin selSpec_pickFirstMin ⟨0⟩
    (by decide)

/-- C5 counterexample: no `StartOrEndNotInGraph`-style error is ever
reported.  On the one-word graph aaaa, a missing start word (aaab) makes
`weave` panic on `position(..).unwrap()` (modelled `.error .unwrapPanic`),
and a missing end word makes it silently return the no-path result. -/
theorem C5_missing_endpoint_counterexample :
    weave pickFirstMin ⟨1⟩ ⟨0⟩ (connect_words [⟨0⟩]) = .error .unwrapPanic ∧
    weave pickFirstMin ⟨0⟩ ⟨1⟩ (connect_words [⟨0⟩]) = .ok none :=
  ⟨by decide, by decide⟩

/-- C5 (amended): the source checks neither endpoint.  A start word absent
from the node list panics the `position(..).unwrap()` call; a present start
with an absent end word silently yields `.ok none` (the search can never pop
the goal, and by soundness of the loop it terminates with no path). -/
theorem C5_missing_endpoint_behavior (ws : List Word)
    (sel : List Nat → (Nat → Nat) → Option Nat) (hsel : SelSpec sel)
    (hvalid : ∀ w ∈ ws, w.val < 26 ^ 4) (s e : Word) :
    (s ∉ (connect_words ws).map (fun n => n.word) →
      weave sel s e (connect_words ws) = .error .unwrapPanic) ∧
    (s ∈ (connect_words ws).map (fun n => n.word) →
      e ∉ (connect_words ws).map (fun n => n.word) →
      weave sel s e (connect_words ws) = .ok none) := by
  have hpow : (26 : Nat) ^ 4 = 456976 := by norm_num
  have hvalid' : ∀ w ∈ ws, w.val < 456976 := by
    intro w hw
    have := hvalid w hw
    rw [hpow] at this
    exact this
  constructor
  · intro hs
    exact weave_eq_panic (findIdx_none_of_not_mem hs)
  · intro hs he
    obtain ⟨si, hidx⟩ := findIdx_some_of_mem hs
    rcases weave_sound hvalid' hsel (e := e) hidx with ⟨p, _, hpath, _⟩ | hnone
    · obtain ⟨_, hlast, _, hmem⟩ := hpath
      obtain ⟨i, hi, hwi⟩ := hmem e (mem_of_getLast?_eq hlast)
      exact absurd (hwi ▸ nodeWord_mem_map hi) he
    · exact hnone

/-- C5 witness for the amended statement: on the one-word graph aaaa, the
missing start word aaab triggers the unwrap panic. -/
theorem C5_missing_endpoint_behavior_witness :
    weave pickFirstMin ⟨1⟩ ⟨0⟩ (connect_words [⟨0⟩]) = .error .unwrapPanic :=
  (C5_missing_endpoint_behavior [⟨0⟩] pickFirstMin selSpec_pickFirstMin
    (by decide) ⟨1⟩ ⟨0⟩).1 (by decide)

/-- C9 counterexample: the returned path is not a function of the inputs
alone.  Insertion-order and reverse-insertion-order `HashSet` iteration are
both behaviours `min_by_key` can exhibit (both satisfy `SelSpec`), yet on
the graph aaaa/aaab/aaba/aabb with start aaaa and end aabb one run returns
aaaa→aaab→aabb and the other aaaa→aaba→aabb. -/
theorem C9_determinism_counterexample :
    SelSpec pickFirstMin ∧ SelSpec pickLastMin ∧
    weave pickFirstMin ⟨0⟩ ⟨27⟩ (connect_words [⟨27⟩, ⟨0⟩, ⟨1⟩, ⟨26⟩]) =
      .ok (some [⟨0⟩, ⟨1⟩, ⟨27⟩]) ∧
    weave pickLastMin ⟨0⟩ ⟨27⟩ (connect_words [⟨27⟩, ⟨0⟩, ⟨1⟩, ⟨26⟩]) =
      .ok (some [⟨0⟩, ⟨26⟩, ⟨27⟩]) ∧
    ([⟨0⟩, ⟨1⟩, ⟨27⟩] : List Word) ≠ [⟨0⟩, ⟨26⟩, ⟨27⟩] :=
  ⟨selSpec_pickFirstMin, selSpec_pickLastMin, by decide, by decide, by decide⟩

/-- C9 (amended): what is invariant across runs is the cost, not the path —
any two runs on the same graph, start and end whose selection behaviour is a
valid `min_by_key` behaviour and which both return a path return paths of
equal total cost. -/
theorem C9_equal_cost (ws : List Word)
    (hvalid : ∀ w ∈ ws, w.val < 26 ^ 4)
    (sel1 sel2 : List Nat → (Nat → Nat) → Option Nat)
    (h1 : SelSpec sel1) (h2 : SelSpec sel2) (s e : Word) (p1 p2 : List Word)
    (hr1 : weave sel1 s e (connect_words ws) = .ok (some p1))
    (hr2 : weave sel2 s e (connect_words ws) = .ok (some p2)) :
    pathCost p1 = pathCost p2 := by
  have hpow : (26 : Nat) ^ 4 = 456976 := by norm_num
  have hvalid' : ∀ w ∈ ws, w.val < 456976 := by
    intro w hw
    have := hvalid w hw
    rw [hpow] at this
    exact this
  cases hidx : (connect_words ws).findIdx? (fun n => decide (n.word = s)) with
  | none =>
    rw [weave_eq_panic hidx] at hr1
    simp at hr1
  | some si =>
    rcases weave_sound hvalid' h1 (e := e) hidx with ⟨q1, hq1, hpath1, hmin1⟩ | hnone1
    · rcases weave_sound hvalid' h2 (e := e) hidx with ⟨q2, hq2, hpath2, hmin2⟩ | hnone2
      · rw [hr1] at hq1
        rw [hr2] at hq2
        rw [Option.some.inj (Except.ok.inj hq1), Option.some.inj (Except.ok.inj hq2)]
        exact Nat.le_antisymm (hmin1 q2 hpath2) (hmin2 q1 hpath1)
      · rw [hr2] at hnone2
        simp at hnone2
    · rw [hr1] at hnone1
      simp at hnone1

/-- C9 witness for the amended statement: the two distinct paths of the
counterexample graph have equal cost. -/
theorem C9_equal_cost_witness :
    pathCost [⟨0⟩, ⟨1⟩, ⟨27⟩] = pathCost [⟨0⟩, ⟨26⟩, ⟨27⟩] :=
  C9_equal_cost [⟨27⟩, ⟨0⟩, ⟨1⟩, ⟨26⟩] (by decide) pickFirstMin pickLastMin
    selSpec_pickFirstMin selSpec_pickLastMin ⟨0⟩ ⟨27⟩ _ _ (by decide) (by decide)

end WeaverSolver
